import Mathlib

/-!
Verification of the rubot game-bot library against its specification.

Source material translated here:
* `src/lib.rs` — the `Game` trait with its default `look_ahead`, the
  `RunCondition` family (`InnerSteps`, `ToCompletion`, `Depth`) and the
  `Logger`/`InnerLogger` instrumentation wrapper.
* `src/fuzz/fuzz_targets/to_completion.rs` — the synthetic game tree (`Node`)
  used to fuzz the engine against the brute-force oracle.

The alpha-beta engine (`alpha_beta.rs`), the example tree game (`tree.rs`) and
the brute-force oracle (`brute.rs`) are declared in `lib.rs` but their sources
are not available; where a claim depends on them they are modelled from the
specification, and each such definition carries a doc comment saying so.

Wall-clock time (`Instant`/`Duration`) is modelled by explicit natural-number
timestamps handed to acquisition and release of the instrumentation wrapper.
-/

namespace Rubot

/-! ## The fuzz-harness game tree -/

mutual
/-- Translation of the fuzz-harness game state `Node`
(`fuzz_targets/to_completion.rs`): the player whose turn it is at this
position, the fitness of the position — always from the perspective of the
tested player (an `i8` in the source, modelled as `Int`) — and the child
positions. The `Vec<Node>` of children is represented by the isomorphic
list type `NList` so that structural recursion and kernel evaluation are
available for the mutual recursion over nodes and child lists. -/
inductive Node : Type where
  | mk (player : Bool) (fitness : Int) (children : NList)

/-- a list of nodes, isomorphic to `List Node` via `NList.toList` -/
inductive NList : Type where
  | nil : NList
  | cons (head : Node) (tail : NList) : NList
end

/-- view of a child list as an ordinary list -/
def NList.toList : NList → List Node
  | .nil => []
  | .cons c cs => c :: cs.toList

/-- builds a child list from an ordinary list (used to write literal trees) -/
def ofList : List Node → NList
  | [] => .nil
  | c :: cs => .cons c (ofList cs)

/-- the player whose turn it is at this position -/
def Node.player : Node → Bool
  | .mk p _ _ => p

/-- the fitness of this position from the tested player's perspective -/
def Node.fitness : Node → Int
  | .mk _ f _ => f

/-- the child positions, as an ordinary list -/
def Node.children : Node → List Node
  | .mk _ _ cs => cs.toList

/-- fuzz-harness `impl Game for Node`, `fn actions`: whether the queried
player is the active one, together with one action per child (the child
indices `0..children.len()`). -/
def Node.actions (n : Node) (player : Bool) : Bool × List Nat :=
  (player == n.player, List.range n.children.length)

/-- fuzz-harness `fn execute`: replace the state by the chosen child and
return that child's fitness. -/
def Node.execute (n : Node) (action : Nat) : Node × Int :=
  match n.children[action]? with
  | some c => (c, c.fitness)
  | none => (n, n.fitness)

/-- fuzz-harness `fn look_ahead`: the fitness of the chosen child, without
touching the state. -/
def Node.lookAhead (n : Node) (action : Nat) : Option Int :=
  (n.children[action]?).map Node.fitness

/-! ## Run conditions (`lib.rs`) -/

/-- the `RunCondition` trait (lib.rs 252-255) as a state machine over a
state type `σ`: `step()` and `depth(d)` each return a boolean verdict and
the updated state. -/
structure RCM (σ : Type) where
  stepF : σ → Bool × σ
  depthF : σ → Nat → Bool × σ

/-- `InnerSteps` state: the pair `(count, limit)` of `u32` fields
(lib.rs 214). -/
def stepsIntoRunCondition (n : Nat) : Nat × Nat := (0, n)

/-- `impl RunCondition for InnerSteps` (lib.rs 224-235): `step` increments
the `u32` counter (wrapping at `2^32`) and returns `self.0 < self.1`;
`depth` always returns `true`. -/
def innerSteps : RCM (Nat × Nat) where
  stepF := fun s => (decide ((s.1 + 1) % 4294967296 < s.2), ((s.1 + 1) % 4294967296, s.2))
  depthF := fun s _ => (true, s)

/-- `impl RunCondition for ToCompletion` (lib.rs 278-288): both queries
always answer `true`. -/
def toCompletion : RCM Unit where
  stepF := fun s => (true, s)
  depthF := fun s _ => (true, s)

/-- `impl RunCondition for Depth` (lib.rs 315-325): the state is the
wrapped `self.0`; `step` always answers `true`, `depth d` answers
`self.0 > d`. -/
def depthCond : RCM Nat where
  stepF := fun s => (true, s)
  depthF := fun s d => (decide (s > d), s)

/-! ## The Logger instrumentation wrapper (`lib.rs`) -/

/-- the fields of `Logger<T>` (lib.rs 331-336); the wall-clock `Duration`
is modelled in abstract clock ticks -/
structure LoggerS (σ : Type) where
  condition : σ
  steps : Nat
  depth : Nat
  duration : Nat

/-- `IntoRunCondition for &mut Logger` (lib.rs 384-392): acquisition
resets `steps` and `depth` to zero; the `Instant::now()` captured by the
returned `InnerLogger` is the timestamp the caller later hands to
`loggerRelease`. -/
def loggerAcquire {σ : Type} (L : LoggerS σ) : LoggerS σ :=
  { L with steps := 0, depth := 0 }

/-- `impl RunCondition for InnerLogger` (lib.rs 394-404): `step` first
increments the owning logger's `steps` counter and then forwards to the
wrapped condition; `depth d` first stores `d` in the owning logger's
`depth` field and then forwards. -/
def innerLogger {σ : Type} (inner : RCM σ) : RCM (LoggerS σ) where
  stepF := fun L =>
    ((inner.stepF L.condition).1,
      { condition := (inner.stepF L.condition).2
        steps := L.steps + 1
        depth := L.depth
        duration := L.duration })
  depthF := fun L d =>
    ((inner.depthF L.condition d).1,
      { condition := (inner.depthF L.condition d).2
        steps := L.steps
        depth := d
        duration := L.duration })

/-- `impl Drop for InnerLogger` (lib.rs 406-410): on release the elapsed
time since acquisition (`t0` acquisition timestamp, `t1` release
timestamp) is written into the owning logger's `duration`. -/
def loggerRelease {σ : Type} (L : LoggerS σ) (t0 t1 : Nat) : LoggerS σ :=
  { L with duration := t1 - t0 }

/-- one query made to a run condition during a search -/
inductive RCCall : Type where
  | step : RCCall
  | depth (d : Nat) : RCCall

/-- feeds a sequence of queries to a run condition, collecting the verdicts
and the final state -/
def runTrace {σ : Type} (rc : RCM σ) : σ → List RCCall → List Bool × σ
  | s, [] => ([], s)
  | s, RCCall.step :: tr =>
    ((rc.stepF s).1 :: (runTrace rc (rc.stepF s).2 tr).1, (runTrace rc (rc.stepF s).2 tr).2)
  | s, RCCall.depth d :: tr =>
    ((rc.depthF s d).1 :: (runTrace rc (rc.depthF s d).2 tr).1, (runTrace rc (rc.depthF s d).2 tr).2)

/-- how many `step()` queries a trace contains -/
def countSteps : List RCCall → Nat
  | [] => 0
  | RCCall.step :: tr => countSteps tr + 1
  | RCCall.depth _ :: tr => countSteps tr

/-- the argument of the last `depth` query of a trace, or `d0` if there is
none -/
def lastDepth (d0 : Nat) : List RCCall → Nat
  | [] => d0
  | RCCall.step :: tr => lastDepth d0 tr
  | RCCall.depth d :: tr => lastDepth d tr

/-- one bracketed use of a `Logger`: acquire (resetting the counters),
run the queries the search makes, release at `t1` (recording the elapsed
time since the acquisition timestamp `t0`) -/
def loggerScope {σ : Type} (inner : RCM σ) (L : LoggerS σ) (t0 t1 : Nat)
    (tr : List RCCall) : LoggerS σ :=
  loggerRelease (runTrace (innerLogger inner) (loggerAcquire L) tr).2 t0 t1

/-! ## The Game trait and its default look_ahead (`lib.rs`) -/

/-- the operations of the `Game` trait (lib.rs 103-154) touched by
`look_ahead`: `execute` mutates the state and reports a fitness, modelled
as returning the updated state together with the fitness; `clone` is the
`Clone` implementation of the state type. -/
structure GameI (S A P F : Type) where
  actions : S → P → Bool × List A
  execute : S → A → P → S × F
  clone : S → S

/-- the default body of `Game::look_ahead` (lib.rs 151-153):
`self.clone().execute(action, player)` — the receiver is only borrowed,
so the state paired with the fitness in the result is the untouched
original, and the mutation happens on the discarded clone. -/
def lookAheadDefault {S A P F : Type} (g : GameI S A P F) (s : S) (a : A) (p : P) : S × F :=
  (s, (g.execute (g.clone s) a p).2)

/-! ## Heights of game trees -/

mutual
/-- length of the longest path from a node to a leaf -/
def height : Node → Nat
  | .mk _ _ cs => heightL cs

/-- largest height reachable through any node of a child list, counting
the step into the child -/
def heightL : NList → Nat
  | .nil => 0
  | .cons c cs => max (1 + height c) (heightL cs)
end

/-- does every leaf below the node lie within `d` further plies? -/
def allLeavesWithin : Nat → Node → Bool
  | 0, n => n.children.isEmpty
  | d + 1, n => n.children.all fun c => allLeavesWithin d c

/-- the largest height among the root's children -/
def maxChildHeight (root : Node) : Nat :=
  root.children.foldl (fun m c => max m (height c)) 0

/-- a search of depth `d` into the root's children has reached every leaf,
so no deeper tier can change the outcome -/
def solvedAt (root : Node) (d : Nat) : Bool :=
  root.children.all fun c => allLeavesWithin d c

/-! ## The unpruned reference value and the alpha-beta engine

The engine (`alpha_beta.rs`) and the oracle (`brute.rs`) are not among the
available sources, so the following definitions are modelled from the
specification. -/

/-- Modelled from the spec: the full-width depth-limited minimax value of a
position (spec sections 4.3 and 4.4, over the fuzz-harness game). A node
with no children, or a zero remaining depth, is scored by the fitness
already attached to reaching it; otherwise the children's values are
maximised when it is the searched player's turn and minimised when an
opponent is acting. Fitness is always from the searched player's
perspective, as in the fuzz harness. -/
def valD : Nat → Node → Int
  | 0, n => n.fitness
  | _ + 1, .mk _ f .nil => f
  | d + 1, .mk true _ (.cons c rest) =>
    rest.toList.foldl (fun v c' => max v (valD d c')) (valD d c)
  | d + 1, .mk false _ (.cons c rest) =>
    rest.toList.foldl (fun v c' => min v (valD d c')) (valD d c)

/-- Modelled from the spec: the value the brute-force oracle of the absent
`src/brute.rs` computes — it "exhaustively expands the entire reachable
tree" (spec section 4.4), i.e. evaluates at a depth reaching every leaf. -/
def val (n : Node) : Int := valD (height n) n

/-- Modelled from the spec: `Brute::is_best` of the absent `src/brute.rs`
(spec section 4.4 and the fuzz target): no action is best exactly when the
root offers no action, and an action is best when its subtree's full-width
value is maximal among all root actions, ties allowed. -/
def isBest (root : Node) : Option Nat → Prop
  | none => root.children = []
  | some i => ∃ c, root.children[i]? = some c ∧ ∀ x ∈ root.children, val x ≤ val c

/-- does the fitness `v` lie strictly below the upper window bound?
(`none` is an absent bound) -/
def belowUpper : Option Int → Int → Bool
  | none, _ => true
  | some b, v => decide (v < b)

/-- does the fitness `v` lie strictly above the lower window bound? -/
def aboveLower : Option Int → Int → Bool
  | none, _ => true
  | some a, v => decide (a < v)

/-- raise the lower window bound to at least `v` -/
def raiseLower : Option Int → Int → Option Int
  | none, v => some v
  | some a, v => some (max a v)

/-- lower the upper window bound to at most `v` -/
def lowerUpper : Option Int → Int → Option Int
  | none, v => some v
  | some b, v => some (min b v)

/-- a window is well formed when its lower bound lies below its upper bound -/
def winOK : Option Int → Option Int → Prop
  | some a, some b => a < b
  | _, _ => True

/-- Modelled from the spec: the bounded recursive evaluation of the absent
`src/alpha_beta.rs` (spec section 4.3 item 3): depth-limited minimax with
fail-soft alpha-beta cutoffs. While scanning the children of a maximising
node the running value is a lower bound for the remaining siblings, and the
scan stops once it reaches the upper bound; dually at minimising nodes.
Leaves and exhausted depth are scored by the stored fitness (spec section
4.3 item 4). -/
def ab : Nat → Option Int → Option Int → Node → Int
  | 0, _, _, n => n.fitness
  | _ + 1, _, _, .mk _ f .nil => f
  | d + 1, alpha, beta, .mk true _ (.cons c rest) =>
    rest.toList.foldl
      (fun v c' => if belowUpper beta v then max v (ab d (raiseLower alpha v) beta c') else v)
      (ab d alpha beta c)
  | d + 1, alpha, beta, .mk false _ (.cons c rest) =>
    rest.toList.foldl
      (fun v c' => if aboveLower alpha v then min v (ab d alpha (lowerUpper beta v) c') else v)
      (ab d alpha beta c)

/-- Modelled from the spec: best-action bookkeeping at the root for one
depth tier (spec section 4.3 item 5): scan the root actions in order,
searching each with the best value so far as lower bound and no upper
bound, and replace the incumbent only on strict improvement, so the first
action encountered wins ties. Arguments: tier depth, index of the next
action, incumbent index, incumbent value, remaining actions. -/
def rootLoop (d : Nat) : Nat → Nat → Int → List Node → Nat × Int
  | _, bi, bv, [] => (bi, bv)
  | i, bi, bv, c :: cs =>
    if bv < ab d (some bv) none c then rootLoop d (i + 1) i (ab d (some bv) none c) cs
    else rootLoop d (i + 1) bi bv cs

/-- Modelled from the spec: one completed depth tier over the root actions;
the first action is searched with an unbounded window. Returns the chosen
index and its search value. -/
def rootTier (d : Nat) (cs : List Node) : Nat × Int :=
  match cs with
  | [] => (0, 0)
  | c :: rest => rootLoop d 1 0 (ab d none none c) rest

/-- Modelled from the spec: the budget-polled search of the absent
`src/alpha_beta.rs` (spec section 4.3 items 2 and 3): every node expansion
first asks the budget's `step()`; a `false` verdict aborts the current
tier, whose partial results are discarded. The budget state is threaded
through the whole exploration, pruned siblings are not expanded and hence
not polled, and the returned value is `none` exactly when the tier was
cut short. Apart from the polling this is the windowed fail-soft
alpha-beta search of `ab`. -/
def abS {σ : Type} (rc : RCM σ) : Nat → Option Int → Option Int → Node → σ → Option Int × σ
  | 0, _, _, n, s =>
    if (rc.stepF s).1 then (some n.fitness, (rc.stepF s).2) else (none, (rc.stepF s).2)
  | _ + 1, _, _, .mk _ f .nil, s =>
    if (rc.stepF s).1 then (some f, (rc.stepF s).2) else (none, (rc.stepF s).2)
  | d + 1, alpha, beta, .mk true _ (.cons c rest), s =>
    if (rc.stepF s).1 then
      rest.toList.foldl
        (fun acc c' =>
          match acc with
          | (none, t) => (none, t)
          | (some v, t) =>
            if belowUpper beta v then
              match abS rc d (raiseLower alpha v) beta c' t with
              | (none, t') => (none, t')
              | (some g, t') => (some (max v g), t')
            else (some v, t))
        (abS rc d alpha beta c (rc.stepF s).2)
    else (none, (rc.stepF s).2)
  | d + 1, alpha, beta, .mk false _ (.cons c rest), s =>
    if (rc.stepF s).1 then
      rest.toList.foldl
        (fun acc c' =>
          match acc with
          | (none, t) => (none, t)
          | (some v, t) =>
            if aboveLower alpha v then
              match abS rc d alpha (lowerUpper beta v) c' t with
              | (none, t') => (none, t')
              | (some g, t') => (some (min v g), t')
            else (some v, t))
        (abS rc d alpha beta c (rc.stepF s).2)
    else (none, (rc.stepF s).2)

/-- the budget-polled scan over the later children of a maximising node,
named for the proofs -/
def abSFoldMax {σ : Type} (rc : RCM σ) (d : Nat) (alpha beta : Option Int)
    (acc : Option Int × σ) (cs : List Node) : Option Int × σ :=
  cs.foldl
    (fun acc c' =>
      match acc with
      | (none, t) => (none, t)
      | (some v, t) =>
        if belowUpper beta v then
          match abS rc d (raiseLower alpha v) beta c' t with
          | (none, t') => (none, t')
          | (some g, t') => (some (max v g), t')
        else (some v, t))
    acc

/-- the budget-polled scan over the later children of a minimising node,
named for the proofs -/
def abSFoldMin {σ : Type} (rc : RCM σ) (d : Nat) (alpha beta : Option Int)
    (acc : Option Int × σ) (cs : List Node) : Option Int × σ :=
  cs.foldl
    (fun acc c' =>
      match acc with
      | (none, t) => (none, t)
      | (some v, t) =>
        if aboveLower alpha v then
          match abS rc d alpha (lowerUpper beta v) c' t with
          | (none, t') => (none, t')
          | (some g, t') => (some (min v g), t')
        else (some v, t))
    acc

/-- Modelled from the spec: the budget-polled root scan of one depth tier,
mirroring `rootLoop` with the budget threaded through each action's search;
`none` means the tier was cut short by a step() denial. -/
def rootLoopS {σ : Type} (rc : RCM σ) (d : Nat) :
    Nat → Nat → Int → List Node → σ → Option (Nat × Int) × σ
  | _, bi, bv, [], s => (some (bi, bv), s)
  | i, bi, bv, c :: cs, s =>
    match abS rc d (some bv) none c s with
    | (none, s') => (none, s')
    | (some g, s') =>
      if bv < g then rootLoopS rc d (i + 1) i g cs s'
      else rootLoopS rc d (i + 1) bi bv cs s'

/-- Modelled from the spec: one budget-polled depth tier over the root
actions; returns the chosen index when the tier ran to completion and
`none` when a step() denial cut it short. -/
def rootTierS {σ : Type} (rc : RCM σ) (d : Nat) (cs : List Node) (s : σ) :
    Option Nat × σ :=
  match cs with
  | [] => (some 0, s)
  | c :: rest =>
    match abS rc d none none c s with
    | (none, s') => (none, s')
    | (some v, s') =>
      match rootLoopS rc d 1 0 v rest s' with
      | (none, s'') => (none, s'')
      | (some r, s'') => (some r.1, s'')

/-- Modelled from the spec: the iterative-deepening driver of the absent
`src/alpha_beta.rs` (spec sections 4.2 and 4.3, fixed by the documented
two-ply `Depth` example, lib.rs 294-310). `best` is the choice of the
already completed tier `d`; the driver asks `depth(d)` for permission to
deepen, stopping at the first denial or once the completed tier has
reached every leaf; a deeper tier cut short by a step() denial is
discarded and the last fully completed tier's choice is kept (spec section
4.3 item 2). The fuel argument only serves termination and is chosen large
enough that the solved check always fires first. Returns ((choice of the
deepest fully completed tier, that tier), final budget state). -/
def abLoop {σ : Type} (rc : RCM σ) (root : Node) : Nat → σ → Nat → Nat → (Nat × Nat) × σ
  | 0, s, best, d => ((best, d), s)
  | fuel + 1, s, best, d =>
    if (rc.depthF s d).1 = false then ((best, d), (rc.depthF s d).2)
    else if solvedAt root d then ((best, d), (rc.depthF s d).2)
    else
      match rootTierS rc (d + 1) root.children (rc.depthF s d).2 with
      | (none, s') => ((best, d), s')
      | (some bi, s') => abLoop rc root fuel s' bi (d + 1)

/-- Modelled from the spec: `Bot::select` of the absent `src/alpha_beta.rs`
(spec section 4.3): none when the root offers no legal action, none when
the budget is exhausted before the first tier completes, and otherwise the
choice of the deepest fully completed tier. Also returns the final budget
state. -/
def ABselectFull {σ : Type} (rc : RCM σ) (s : σ) (root : Node) : Option Nat × σ :=
  match root.children with
  | [] => (none, s)
  | _ :: _ =>
    match rootTierS rc 0 root.children s with
    | (none, s1) => (none, s1)
    | (some bi, s1) =>
      (some (abLoop rc root (maxChildHeight root + 1) s1 bi 0).1.1,
        (abLoop rc root (maxChildHeight root + 1) s1 bi 0).2)

/-- the selected action of a `Bot::select` call -/
def ABselect {σ : Type} (rc : RCM σ) (s : σ) (root : Node) : Option Nat :=
  (ABselectFull rc s root).1

/-- Modelled from the spec: a `Bot::select` call bracketed by acquisition
and release of a `Logger` (lib.rs 384-410): acquire at timestamp `t0`,
run the budget-polled search against the wrapped condition, release at
timestamp `t1`. Returns the selected action and the logger as left behind
by the call. -/
def loggerSelect {σ : Type} (inner : RCM σ) (L : LoggerS σ) (t0 t1 : Nat)
    (root : Node) : Option Nat × LoggerS σ :=
  ((ABselectFull (innerLogger inner) (loggerAcquire L) root).1,
    loggerRelease (ABselectFull (innerLogger inner) (loggerAcquire L) root).2 t0 t1)

/-- counts the step() queries a budget receives while forwarding every call
to it unchanged; running the search against it counts the step() polls the
search makes -/
def stepCounter {σ : Type} (inner : RCM σ) : RCM (σ × Nat) where
  stepF := fun s => ((inner.stepF s.1).1, ((inner.stepF s.1).2, s.2 + 1))
  depthF := fun s d => ((inner.depthF s.1 d).1, ((inner.depthF s.1 d).2, s.2))

/-- two budget runs related pairwise: equal answers, related states -/
@[reducible] def simOut {σ₁ σ₂ α : Type} (R : σ₁ → σ₂ → Prop) (x : α × σ₁) (y : α × σ₂) : Prop :=
  x.1 = y.1 ∧ R x.2 y.2

/-- a relation between the states of two budgets under which both answer
every step() and depth(d) query identically and stay related -/
@[reducible] def RCsim {σ₁ σ₂ : Type} (rc₁ : RCM σ₁) (rc₂ : RCM σ₂) (R : σ₁ → σ₂ → Prop) : Prop :=
  (∀ s₁ s₂, R s₁ s₂ → simOut R (rc₁.stepF s₁) (rc₂.stepF s₂)) ∧
  (∀ s₁ s₂ d, R s₁ s₂ → simOut R (rc₁.depthF s₁ d) (rc₂.depthF s₂ d))

/-- the scan `ab` performs over the later children of a maximising node,
named for the proofs -/
def abFoldMax (d : Nat) (alpha beta : Option Int) (v : Int) (cs : List Node) : Int :=
  cs.foldl (fun v c' => if belowUpper beta v then max v (ab d (raiseLower alpha v) beta c') else v) v

/-- the scan `ab` performs over the later children of a minimising node,
named for the proofs -/
def abFoldMin (d : Nat) (alpha beta : Option Int) (v : Int) (cs : List Node) : Int :=
  cs.foldl (fun v c' => if aboveLower alpha v then min v (ab d alpha (lowerUpper beta v) c') else v) v

/-- the scan `valD` performs over the later children of a maximising node -/
def valFoldMax (d : Nat) (P : Int) (cs : List Node) : Int :=
  cs.foldl (fun v c' => max v (valD d c')) P

/-- the scan `valD` performs over the later children of a minimising node -/
def valFoldMin (d : Nat) (P : Int) (cs : List Node) : Int :=
  cs.foldl (fun v c' => min v (valD d c')) P

/-- the fail-soft alpha-beta contract: a search answer `g` for a position of
true value `w` under a window is exact when it lies strictly inside the
window, a lower bound on nothing and an upper bound on `w` when it fails
low, and a lower bound on `w` when it fails high -/
def triAt (alpha beta : Option Int) (g w : Int) : Prop :=
  (∀ a, alpha = some a → g ≤ a → w ≤ g) ∧
  (aboveLower alpha g = true → belowUpper beta g = true → w = g) ∧
  (∀ b, beta = some b → b ≤ g → g ≤ w)

/-- the two-ply tree of the `Depth` documentation example (lib.rs 294-310):
a root for player `true` with children of fitness 7 and 5, whose
grandchildren have fitness 4, 2 and 8, 9 -/
def exTree : Node :=
  .mk true 0 (ofList
    [.mk false 7 (ofList [.mk true 4 .nil, .mk true 2 .nil]),
     .mk false 5 (ofList [.mk true 8 .nil, .mk true 9 .nil])])

/-! ## Behaviour of the Logger decorator on arbitrary call sequences -/

/-- computation rule for the decorated step query -/
theorem innerLogger_stepF {σ : Type} (inner : RCM σ) (L : LoggerS σ) :
    (innerLogger inner).stepF L =
      ((inner.stepF L.condition).1,
        ⟨(inner.stepF L.condition).2, L.steps + 1, L.depth, L.duration⟩) := rfl

/-- computation rule for the decorated depth query -/
theorem innerLogger_depthF {σ : Type} (inner : RCM σ) (L : LoggerS σ) (d : Nat) :
    (innerLogger inner).depthF L d =
      ((inner.depthF L.condition d).1,
        ⟨(inner.depthF L.condition d).2, L.steps, d, L.duration⟩) := rfl

/-- on any call sequence the decorated condition answers exactly as the
wrapped one, while the logger accumulates the step count, records the last
depth argument and leaves the duration untouched -/
theorem runTrace_innerLogger_spec {σ : Type} (inner : RCM σ) :
    ∀ (tr : List RCCall) (L : LoggerS σ),
      (runTrace (innerLogger inner) L tr).1 = (runTrace inner L.condition tr).1 ∧
      (runTrace (innerLogger inner) L tr).2 =
        ⟨(runTrace inner L.condition tr).2, L.steps + countSteps tr,
          lastDepth L.depth tr, L.duration⟩
  | [], L => by
    refine ⟨rfl, ?_⟩
    simp [runTrace, countSteps, lastDepth]
  | RCCall.step :: tr, L => by
    have ih := runTrace_innerLogger_spec inner tr
      ⟨(inner.stepF L.condition).2, L.steps + 1, L.depth, L.duration⟩
    refine ⟨?_, ?_⟩
    · simp only [runTrace, innerLogger_stepF]
      rw [ih.1]
    · simp only [runTrace, innerLogger_stepF]
      rw [ih.2]
      simp only [countSteps, lastDepth]
      congr 1
      omega
  | RCCall.depth d :: tr, L => by
    have ih := runTrace_innerLogger_spec inner tr
      ⟨(inner.depthF L.condition d).2, L.steps, d, L.duration⟩
    refine ⟨?_, ?_⟩
    · simp only [runTrace, innerLogger_depthF]
      rw [ih.1]
    · simp only [runTrace, innerLogger_depthF]
      rw [ih.2]
      simp only [countSteps, lastDepth]

/-- C7: for every inner run condition and every sequence of step()/depth(d)
calls, the Logger-decorated run condition returns from step() and depth(d)
exactly the booleans the inner condition itself returns on the same call
sequence: the instrumentation decorator never changes a continue/stop
decision. -/
theorem inner_logger_forwards_every_decision {σ : Type} (inner : RCM σ)
    (s : σ) (st dp du : Nat) (tr : List RCCall) :
    (runTrace (innerLogger inner) ⟨s, st, dp, du⟩ tr).1 = (runTrace inner s tr).1 :=
  (runTrace_innerLogger_spec inner tr ⟨s, st, dp, du⟩).1

/-- C10: between acquisition and release, a query of Logger::duration()
still returns the duration recorded by the previous search — acquisition
resets only the step and depth counters, and no step()/depth(d) call
touches the duration field. -/
theorem logger_duration_untouched_between_acquire_and_release {σ : Type}
    (inner : RCM σ) (L : LoggerS σ) (tr : List RCCall) :
    ((runTrace (innerLogger inner) (loggerAcquire L) tr).2).duration = L.duration := by
  rw [(runTrace_innerLogger_spec inner tr (loggerAcquire L)).2]
  simp [loggerAcquire]

/-- C9: a bracketed search through a Logger resets the step and depth
counters at acquisition and records the elapsed time at release, so its
outcome does not depend on the counters left behind by an earlier search:
two loggers differing only in their recorded fields end the scope in the
same state, whose fields are the trace's step count, the trace's last
depth argument and the elapsed time. -/
theorem logger_scope_resets_and_records_independently {σ : Type}
    (inner : RCM σ) (L1 L2 : LoggerS σ) (t0 t1 : Nat) (tr : List RCCall)
    (h : L1.condition = L2.condition) :
    loggerScope inner L1 t0 t1 tr = loggerScope inner L2 t0 t1 tr ∧
    (loggerScope inner L1 t0 t1 tr).steps = countSteps tr ∧
    (loggerScope inner L1 t0 t1 tr).depth = lastDepth 0 tr ∧
    (loggerScope inner L1 t0 t1 tr).duration = t1 - t0 := by
  have h1 := (runTrace_innerLogger_spec inner tr (loggerAcquire L1)).2
  have h2 := (runTrace_innerLogger_spec inner tr (loggerAcquire L2)).2
  unfold loggerScope loggerRelease
  rw [h1, h2]
  simp [loggerAcquire, h]

/-- witness for C9 at a concrete inner condition, two loggers with
different leftover fields, timestamps 3 and 10 and a two-call trace -/
theorem logger_scope_resets_and_records_independently_witness :
    loggerScope toCompletion ⟨(), 1, 2, 3⟩ 3 10 [RCCall.step, RCCall.depth 2] =
      loggerScope toCompletion ⟨(), 4, 5, 6⟩ 3 10 [RCCall.step, RCCall.depth 2] ∧
    (loggerScope toCompletion ⟨(), 1, 2, 3⟩ 3 10 [RCCall.step, RCCall.depth 2]).steps =
      countSteps [RCCall.step, RCCall.depth 2] ∧
    (loggerScope toCompletion ⟨(), 1, 2, 3⟩ 3 10 [RCCall.step, RCCall.depth 2]).depth =
      lastDepth 0 [RCCall.step, RCCall.depth 2] ∧
    (loggerScope toCompletion ⟨(), 1, 2, 3⟩ 3 10 [RCCall.step, RCCall.depth 2]).duration = 10 - 3 :=
  logger_scope_resets_and_records_independently toCompletion
    ⟨(), 1, 2, 3⟩ ⟨(), 4, 5, 6⟩ 3 10 [RCCall.step, RCCall.depth 2] rfl

/-- C4 (code bug): the crate's documentation (lib.rs 201) and the spec's
budget table promise that Steps(N) answers true for the first N step()
calls; the code increments the counter before comparing with a strict
less-than, so Steps(1) already answers false on its very first call and
Steps(2) on its second. -/
theorem steps_budget_first_call_already_false :
    (runTrace innerSteps (stepsIntoRunCondition 1) [RCCall.step]).1 = [false] ∧
    (runTrace innerSteps (stepsIntoRunCondition 2) [RCCall.step, RCCall.step]).1 =
      [true, false] := by
  decide

/-- C5: the run condition Depth(D) answers depth(d) with true exactly when
d < D and answers every step() call with true, its state never changing
between calls. -/
theorem depth_run_condition_table_row (D d : Nat) :
    ((depthCond.depthF D d).1 = true ↔ d < D) ∧ (depthCond.depthF D d).2 = D ∧
    (depthCond.stepF D).1 = true ∧ (depthCond.stepF D).2 = D := by
  refine ⟨?_, rfl, rfl, rfl⟩
  simp [depthCond]

/-- C6: the default Game::look_ahead clones the state, executes the action
on the clone and reports that fitness, so whenever clone produces an equal
state the reported fitness is exactly what execute would return, and the
receiver state is left untouched. -/
theorem look_ahead_default_agrees_with_execute {S A P F : Type} (g : GameI S A P F)
    (s : S) (a : A) (p : P) (h : g.clone s = s) :
    lookAheadDefault g s a p = (s, (g.execute s a p).2) := by
  unfold lookAheadDefault
  rw [h]

/-- witness for C6 at a concrete game over integer states whose execute
adds the action to the state and reports the sum -/
theorem look_ahead_default_agrees_with_execute_witness :
    lookAheadDefault (⟨fun s _ => (true, [s]), fun s a _ => (s + a, s + a), fun s => s⟩ :
        GameI Int Int Unit Int) 3 4 () =
      (3, ((⟨fun s _ => (true, [s]), fun s a _ => (s + a, s + a), fun s => s⟩ :
        GameI Int Int Unit Int).execute 3 4 ()).2) :=
  look_ahead_default_agrees_with_execute _ 3 4 () rfl

/-! ## Heights, leaves and depth stabilisation -/

/-- computation rule for the height of a leaf -/
theorem height_nil (p : Bool) (f : Int) : height (.mk p f .nil) = 0 := rfl

/-- computation rule for the height of an inner node -/
theorem height_cons (p : Bool) (f : Int) (c : Node) (cs : NList) :
    height (.mk p f (.cons c cs)) = max (1 + height c) (heightL cs) := rfl

/-- every member of a child list lies strictly below the list's height -/
theorem heightL_bound : ∀ (cs : NList), ∀ c ∈ cs.toList, 1 + height c ≤ heightL cs
  | .nil, c, hc => by simp [NList.toList] at hc
  | .cons hd tl, c, hc => by
    rcases List.mem_cons.1 hc with h | h
    · subst h
      exact le_max_left _ _
    · exact le_trans (heightL_bound tl c h) (le_max_right _ _)

/-- a child list fits below `d + 1` exactly when each member fits below `d` -/
theorem heightL_le_succ : ∀ (cs : NList) (d : Nat),
    heightL cs ≤ d + 1 ↔ ∀ c ∈ cs.toList, height c ≤ d
  | .nil, d => by simp [NList.toList, heightL]
  | .cons hd tl, d => by
    rw [show heightL (.cons hd tl) = max (1 + height hd) (heightL tl) from rfl,
      Nat.max_le, show NList.toList (.cons hd tl) = hd :: tl.toList from rfl,
      List.forall_mem_cons]
    constructor
    · rintro ⟨h1, h2⟩
      exact ⟨by omega, (heightL_le_succ tl d).1 h2⟩
    · rintro ⟨h1, h2⟩
      exact ⟨by omega, (heightL_le_succ tl d).2 h2⟩

/-- the leaves-within check decides whether the height fits within `d` -/
theorem allLeavesWithin_iff : ∀ (d : Nat) (n : Node), allLeavesWithin d n = true ↔ height n ≤ d
  | 0, .mk p f .nil => by
    simp [allLeavesWithin, Node.children, NList.toList, height_nil]
  | 0, .mk p f (.cons c cs) => by
    rw [height_cons]
    constructor
    · intro h
      simp [allLeavesWithin, Node.children, NList.toList] at h
    · intro h
      exact absurd (le_trans (le_max_left _ _) h) (by omega)
  | d + 1, .mk p f cs => by
    rw [show allLeavesWithin (d + 1) (.mk p f cs) =
        (NList.toList cs).all (fun c => allLeavesWithin d c) from rfl,
      show height (.mk p f cs) = heightL cs from rfl,
      List.all_eq_true, heightL_le_succ]
    exact ⟨fun h c hc => (allLeavesWithin_iff d c).1 (h c hc),
      fun h c hc => (allLeavesWithin_iff d c).2 (h c hc)⟩

/-- the fold computing the maximal child height only grows its accumulator -/
theorem foldl_max_height_le : ∀ (cs : List Node) (a : Nat),
    a ≤ cs.foldl (fun m c => max m (height c)) a
  | [], a => le_refl a
  | c :: cs, a =>
    le_trans (le_max_left a (height c)) (foldl_max_height_le cs _)

/-- the fold computing the maximal child height bounds every member -/
theorem mem_foldl_max_height : ∀ (cs : List Node) (a : Nat),
    ∀ c ∈ cs, height c ≤ cs.foldl (fun m c => max m (height c)) a
  | [], a, c, hc => by simp at hc
  | x :: cs, a, c, hc => by
    rcases List.mem_cons.1 hc with h | h
    · subst h
      exact le_trans (le_max_right a (height c)) (foldl_max_height_le cs _)
    · exact mem_foldl_max_height cs _ c h

/-- every root child is bounded by the maximal child height -/
theorem height_le_maxChildHeight (root : Node) (c : Node) (hc : c ∈ root.children) :
    height c ≤ maxChildHeight root :=
  mem_foldl_max_height _ 0 c hc

/-- an unsolved tier leaves some child taller than the tier depth -/
theorem not_solvedAt_exists (root : Node) (d : Nat) (h : ¬ solvedAt root d = true) :
    ∃ c ∈ root.children, d < height c := by
  by_contra hne
  push_neg at hne
  refine h ?_
  unfold solvedAt
  rw [List.all_eq_true]
  intro c hc
  exact (allLeavesWithin_iff d c).2 (hne c hc)

/-- computation rule for the depth-limited value of a leaf -/
theorem valD_leaf : ∀ (d : Nat) (p : Bool) (f : Int), valD d (.mk p f .nil) = f
  | 0, _, _ => rfl
  | _ + 1, true, _ => rfl
  | _ + 1, false, _ => rfl

/-- a fold by a binary operation only depends on the values of its function
on the list members -/
theorem foldl_op_congr (op : Int → Int → Int) :
    ∀ (cs : List Node) (f g : Node → Int) (a : Int),
      (∀ c ∈ cs, f c = g c) →
      cs.foldl (fun v c => op v (f c)) a = cs.foldl (fun v c => op v (g c)) a
  | [], _, _, _, _ => rfl
  | c :: cs, f, g, a, h => by
    simp only [List.foldl_cons]
    rw [h c (List.mem_cons_self c cs)]
    exact foldl_op_congr op cs f g _ fun x hx => h x (List.mem_cons_of_mem c hx)

/-- the depth-limited value is independent of the depth once the depth
reaches every leaf -/
theorem valD_congr : ∀ (d e : Nat) (n : Node), height n ≤ d → height n ≤ e → valD d n = valD e n
  | d, e, .mk p f .nil, _, _ => by rw [valD_leaf, valD_leaf]
  | 0, _, .mk _ _ (.cons c cs), hd, _ => by
    rw [height_cons] at hd
    exact absurd (le_trans (le_max_left _ _) hd) (by omega)
  | _ + 1, 0, .mk _ _ (.cons c cs), _, he => by
    rw [height_cons] at he
    exact absurd (le_trans (le_max_left _ _) he) (by omega)
  | d + 1, e + 1, .mk p f (.cons c cs), hd, he => by
    rw [height_cons] at hd he
    have hc : height c ≤ d := by
      have h1 := le_trans (le_max_left _ _) hd
      omega
    have hc' : height c ≤ e := by
      have h1 := le_trans (le_max_left _ _) he
      omega
    have hrest : ∀ x ∈ cs.toList, valD d x = valD e x := by
      intro x hx
      have h1 := le_trans (heightL_bound cs x hx) (le_trans (le_max_right _ _) hd)
      have h2 := le_trans (heightL_bound cs x hx) (le_trans (le_max_right _ _) he)
      exact valD_congr d e x (by omega) (by omega)
    cases p
    · show valFoldMin d (valD d c) cs.toList = valFoldMin e (valD e c) cs.toList
      unfold valFoldMin
      rw [valD_congr d e c hc hc']
      exact foldl_op_congr (fun v w => min v w) cs.toList (valD d) (valD e) _ hrest
    · show valFoldMax d (valD d c) cs.toList = valFoldMax e (valD e c) cs.toList
      unfold valFoldMax
      rw [valD_congr d e c hc hc']
      exact foldl_op_congr (fun v w => max v w) cs.toList (valD d) (valD e) _ hrest

/-- the depth-limited value agrees with the full-tree oracle value once the
depth reaches every leaf -/
theorem valD_stab (d : Nat) (n : Node) (h : height n ≤ d) : valD d n = val n :=
  valD_congr d (height n) n h (le_refl _)

/-! ## The fail-soft alpha-beta trichotomy -/

/-- computation rule: zero remaining depth scores the stored fitness -/
theorem ab_zero (alpha beta : Option Int) (n : Node) : ab 0 alpha beta n = n.fitness := rfl

/-- computation rule: a leaf scores its stored fitness at any depth -/
theorem ab_leaf : ∀ (d : Nat) (alpha beta : Option Int) (p : Bool) (f : Int),
    ab d alpha beta (.mk p f .nil) = f
  | 0, _, _, _, _ => rfl
  | _ + 1, _, _, true, _ => rfl
  | _ + 1, _, _, false, _ => rfl

/-- computation rule: a maximising node scans its later children -/
theorem ab_cons_true (d : Nat) (alpha beta : Option Int) (f : Int) (c : Node) (rest : NList) :
    ab (d + 1) alpha beta (.mk true f (.cons c rest)) =
      abFoldMax d alpha beta (ab d alpha beta c) rest.toList := rfl

/-- computation rule: a minimising node scans its later children -/
theorem ab_cons_false (d : Nat) (alpha beta : Option Int) (f : Int) (c : Node) (rest : NList) :
    ab (d + 1) alpha beta (.mk false f (.cons c rest)) =
      abFoldMin d alpha beta (ab d alpha beta c) rest.toList := rfl

/-- computation rule for the unpruned value of a maximising node -/
theorem valD_cons_true (d : Nat) (f : Int) (c : Node) (rest : NList) :
    valD (d + 1) (.mk true f (.cons c rest)) = valFoldMax d (valD d c) rest.toList := rfl

/-- computation rule for the unpruned value of a minimising node -/
theorem valD_cons_false (d : Nat) (f : Int) (c : Node) (rest : NList) :
    valD (d + 1) (.mk false f (.cons c rest)) = valFoldMin d (valD d c) rest.toList := rfl

/-- computation rule for the empty maximising scan -/
theorem abFoldMax_nil (d : Nat) (alpha beta : Option Int) (v : Int) :
    abFoldMax d alpha beta v [] = v := rfl

/-- computation rule for one step of the maximising scan -/
theorem abFoldMax_cons (d : Nat) (alpha beta : Option Int) (v : Int) (c : Node) (cs : List Node) :
    abFoldMax d alpha beta v (c :: cs) =
      abFoldMax d alpha beta
        (if belowUpper beta v then max v (ab d (raiseLower alpha v) beta c) else v) cs := rfl

/-- computation rule for the empty minimising scan -/
theorem abFoldMin_nil (d : Nat) (alpha beta : Option Int) (v : Int) :
    abFoldMin d alpha beta v [] = v := rfl

/-- computation rule for one step of the minimising scan -/
theorem abFoldMin_cons (d : Nat) (alpha beta : Option Int) (v : Int) (c : Node) (cs : List Node) :
    abFoldMin d alpha beta v (c :: cs) =
      abFoldMin d alpha beta
        (if aboveLower alpha v then min v (ab d alpha (lowerUpper beta v) c) else v) cs := rfl

/-- computation rule for the empty unpruned maximising scan -/
theorem valFoldMax_nil (d : Nat) (P : Int) : valFoldMax d P [] = P := rfl

/-- computation rule for one step of the unpruned maximising scan -/
theorem valFoldMax_cons (d : Nat) (P : Int) (c : Node) (cs : List Node) :
    valFoldMax d P (c :: cs) = valFoldMax d (max P (valD d c)) cs := rfl

/-- computation rule for the empty unpruned minimising scan -/
theorem valFoldMin_nil (d : Nat) (P : Int) : valFoldMin d P [] = P := rfl

/-- computation rule for one step of the unpruned minimising scan -/
theorem valFoldMin_cons (d : Nat) (P : Int) (c : Node) (cs : List Node) :
    valFoldMin d P (c :: cs) = valFoldMin d (min P (valD d c)) cs := rfl

/-- an absent upper bound never stops the scan -/
theorem belowUpper_none (v : Int) : belowUpper none v = true := rfl

/-- a present upper bound stops the scan exactly at the bound -/
theorem belowUpper_some (b v : Int) : belowUpper (some b) v = true ↔ v < b := by
  simp [belowUpper]

/-- an absent lower bound never stops the scan -/
theorem aboveLower_none (v : Int) : aboveLower none v = true := rfl

/-- a present lower bound stops the scan exactly at the bound -/
theorem aboveLower_some (a v : Int) : aboveLower (some a) v = true ↔ a < v := by
  simp [aboveLower]

/-- a window without upper bound is well formed -/
theorem winOK_none_right (alpha : Option Int) : winOK alpha none := by
  cases alpha <;> trivial

/-- a window without lower bound is well formed -/
theorem winOK_none_left (beta : Option Int) : winOK none beta := by
  cases beta <;> trivial

/-- the scan result of a maximising node satisfies the trichotomy once the
scan stops, given the stated invariant between the running value `v` and
the true value `P` of the prefix scanned so far -/
theorem triAt_stop_max (alpha beta : Option Int) (hw : winOK alpha beta) (v P : Int)
    (hInv : (P ≤ v ∧ (v ≤ P ∨ ∃ a, alpha = some a ∧ v ≤ a)) ∨
      (∃ b, beta = some b ∧ b ≤ v ∧ v ≤ P)) :
    triAt alpha beta v P := by
  rcases hInv with ⟨hPv, hvP | ⟨a, ha, hva⟩⟩ | ⟨b, hb, hbv, hvP⟩
  · exact ⟨fun _ _ _ => hPv, fun _ _ => le_antisymm hPv hvP, fun _ _ _ => hvP⟩
  · subst ha
    refine ⟨fun _ _ _ => hPv, ?_, ?_⟩
    · intro h1 _
      rw [aboveLower_some] at h1
      exact absurd h1 (not_lt.2 hva)
    · intro b hb hbv
      subst hb
      have hab : a < b := hw
      exact absurd (le_trans hbv hva) (not_le.2 hab)
  · subst hb
    refine ⟨?_, ?_, fun _ _ _ => hvP⟩
    · intro a ha hva
      subst ha
      have hab : a < b := hw
      exact absurd (le_trans hbv hva) (not_le.2 hab)
    · intro _ h2
      rw [belowUpper_some] at h2
      exact absurd h2 (not_lt.2 hbv)

/-- the scan result of a minimising node satisfies the trichotomy once the
scan stops, given the mirrored invariant -/
theorem triAt_stop_min (alpha beta : Option Int) (hw : winOK alpha beta) (v P : Int)
    (hInv : (v ≤ P ∧ (P ≤ v ∨ ∃ b, beta = some b ∧ b ≤ v)) ∨
      (∃ a, alpha = some a ∧ v ≤ a ∧ P ≤ v)) :
    triAt alpha beta v P := by
  rcases hInv with ⟨hvP, hPv | ⟨b, hb, hbv⟩⟩ | ⟨a, ha, hva, hPv⟩
  · exact ⟨fun _ _ _ => hPv, fun _ _ => le_antisymm hPv hvP, fun _ _ _ => hvP⟩
  · subst hb
    refine ⟨?_, ?_, fun _ _ _ => hvP⟩
    · intro a ha hva
      subst ha
      have hab : a < b := hw
      exact absurd (le_trans hbv hva) (not_le.2 hab)
    · intro _ h2
      rw [belowUpper_some] at h2
      exact absurd h2 (not_lt.2 hbv)
  · subst ha
    refine ⟨fun _ _ _ => hPv, ?_, ?_⟩
    · intro h1 _
      rw [aboveLower_some] at h1
      exact absurd h1 (not_lt.2 hva)
    · intro b hb hbv
      subst hb
      have hab : a < b := hw
      exact absurd (le_trans hbv hva) (not_le.2 hab)

/-- the maximising scan satisfies the trichotomy, by induction along the
list of remaining children, carrying the invariant between the running
value and the true value of the scanned prefix -/
theorem abFoldMax_tri (d : Nat)
    (IH : ∀ (n : Node) (alpha beta : Option Int), winOK alpha beta →
      triAt alpha beta (ab d alpha beta n) (valD d n)) :
    ∀ (cs : List Node) (alpha beta : Option Int), winOK alpha beta → ∀ (v P : Int),
      ((P ≤ v ∧ (v ≤ P ∨ ∃ a, alpha = some a ∧ v ≤ a)) ∨
        (∃ b, beta = some b ∧ b ≤ v ∧ v ≤ P)) →
      triAt alpha beta (abFoldMax d alpha beta v cs) (valFoldMax d P cs)
  | [], alpha, beta, hw, v, P, hInv => by
    rw [abFoldMax_nil, valFoldMax_nil]
    exact triAt_stop_max alpha beta hw v P hInv
  | c :: cs, alpha, beta, hw, v, P, hInv => by
    rw [abFoldMax_cons, valFoldMax_cons]
    by_cases hcut : belowUpper beta v = true
    case neg =>
      cases beta with
      | none => exact absurd (belowUpper_none v) hcut
      | some b =>
        rw [if_neg hcut]
        have hbv : b ≤ v := by
          rcases le_or_lt b v with h | h
          · exact h
          · exact absurd ((belowUpper_some b v).2 h) hcut
        refine abFoldMax_tri d IH cs alpha (some b) hw v (max P (valD d c))
          (Or.inr ⟨b, rfl, hbv, ?_⟩)
        rcases hInv with ⟨hPv, hvP | ⟨a, ha, hva⟩⟩ | ⟨b', hb', hb'v, hvP⟩
        · exact le_trans hvP (le_max_left _ _)
        · subst ha
          have hab : a < b := hw
          exact absurd (le_trans hbv hva) (not_le.2 hab)
        · exact le_trans hvP (le_max_left _ _)
    case pos =>
      rw [if_pos hcut]
      have hD1 : P ≤ v ∧ (v ≤ P ∨ ∃ a, alpha = some a ∧ v ≤ a) := by
        rcases hInv with h | ⟨b, hb, hbv, _⟩
        · exact h
        · subst hb
          rw [belowUpper_some] at hcut
          exact absurd hcut (not_lt.2 hbv)
      have hw' : winOK (raiseLower alpha v) beta := by
        rcases beta with _ | b
        · exact winOK_none_right _
        · rcases alpha with _ | a
          · show v < b
            exact (belowUpper_some b v).1 hcut
          · show max a v < b
            exact max_lt hw ((belowUpper_some b v).1 hcut)
      have tri_c := IH c (raiseLower alpha v) beta hw'
      by_cases hbhigh : belowUpper beta (ab d (raiseLower alpha v) beta c) = true
      case neg =>
        -- the child search failed high: cutoff state from here on
        cases beta with
        | none => exact absurd (belowUpper_none _) hbhigh
        | some b =>
          have hbg : b ≤ ab d (raiseLower alpha v) (some b) c := by
            rcases le_or_lt b (ab d (raiseLower alpha v) (some b) c) with h | h
            · exact h
            · exact absurd ((belowUpper_some _ _).2 h) hbhigh
          have hgw := tri_c.2.2 b rfl hbg
          have hvb : v < b := (belowUpper_some b v).1 hcut
          have hvg : v ≤ ab d (raiseLower alpha v) (some b) c :=
            le_of_lt (lt_of_lt_of_le hvb hbg)
          refine abFoldMax_tri d IH cs alpha (some b) hw _ (max P (valD d c))
            (Or.inr ⟨b, rfl, ?_, ?_⟩)
          · rw [max_eq_right hvg]
            exact hbg
          · rw [max_eq_right hvg]
            exact le_trans hgw (le_max_right _ _)
      case pos =>
        by_cases halow : aboveLower (raiseLower alpha v) (ab d (raiseLower alpha v) beta c) = true
        case pos =>
          -- the child search answered exactly
          have hwg := tri_c.2.1 halow hbhigh
          refine abFoldMax_tri d IH cs alpha beta hw _ (max P (valD d c)) (Or.inl ⟨?_, ?_⟩)
          · exact max_le (le_trans hD1.1 (le_max_left _ _))
              (le_trans (le_of_eq hwg) (le_max_right _ _))
          · rcases le_total (ab d (raiseLower alpha v) beta c) v with h | h
            · rw [max_eq_left h]
              rcases hD1.2 with hvP | ⟨a, ha, hva⟩
              · exact Or.inl (le_trans hvP (le_max_left _ _))
              · exact Or.inr ⟨a, ha, hva⟩
            · rw [max_eq_right h]
              exact Or.inl (le_trans (le_of_eq hwg.symm) (le_max_right _ _))
        case neg =>
          -- the child search failed low
          cases alpha with
          | none =>
            have hgm : ab d (raiseLower none v) beta c ≤ v := by
              rcases le_or_lt (ab d (raiseLower none v) beta c) v with h | h
              · exact h
              · refine absurd ?_ halow
                show aboveLower (some v) (ab d (some v) beta c) = true
                exact (aboveLower_some _ _).2 h
            have hwg := tri_c.1 v rfl hgm
            refine abFoldMax_tri d IH cs none beta hw _ (max P (valD d c)) (Or.inl ⟨?_, ?_⟩)
            · exact max_le (le_trans hD1.1 (le_max_left _ _))
                (le_trans hwg (le_max_right _ _))
            · rw [max_eq_left hgm]
              rcases hD1.2 with hvP | ⟨a, ha, _⟩
              · exact Or.inl (le_trans hvP (le_max_left _ _))
              · exact absurd ha (by simp)
          | some a =>
            have hgm : ab d (raiseLower (some a) v) beta c ≤ max a v := by
              rcases le_or_lt (ab d (raiseLower (some a) v) beta c) (max a v) with h | h
              · exact h
              · refine absurd ?_ halow
                show aboveLower (some (max a v)) (ab d (some (max a v)) beta c) = true
                exact (aboveLower_some _ _).2 h
            have hwg := tri_c.1 (max a v) rfl hgm
            refine abFoldMax_tri d IH cs (some a) beta hw _ (max P (valD d c)) (Or.inl ⟨?_, ?_⟩)
            · exact max_le (le_trans hD1.1 (le_max_left _ _))
                (le_trans hwg (le_max_right _ _))
            · rcases le_total (ab d (raiseLower (some a) v) beta c) v with h | h
              · rw [max_eq_left h]
                rcases hD1.2 with hvP | ⟨a', ha', hva⟩
                · exact Or.inl (le_trans hvP (le_max_left _ _))
                · refine Or.inr ⟨a, rfl, ?_⟩
                  have haa : a' = a := by
                    injection ha' with h'
                    omega
                  omega
              · rw [max_eq_right h]
                rcases le_total a v with h2 | h2
                · have hmv : max a v = v := max_eq_right h2
                  rw [hmv] at hgm
                  have hgv : ab d (raiseLower (some a) v) beta c = v := le_antisymm hgm h
                  rw [hgv]
                  rcases hD1.2 with hvP | ⟨a', ha', hva⟩
                  · exact Or.inl (le_trans hvP (le_max_left _ _))
                  · refine Or.inr ⟨a, rfl, ?_⟩
                    have haa : a' = a := by
                      injection ha' with h'
                      omega
                    omega
                · have hmv : max a v = a := max_eq_left h2
                  rw [hmv] at hgm
                  exact Or.inr ⟨a, rfl, hgm⟩

/-- the minimising scan satisfies the trichotomy, mirroring the maximising
scan -/
theorem abFoldMin_tri (d : Nat)
    (IH : ∀ (n : Node) (alpha beta : Option Int), winOK alpha beta →
      triAt alpha beta (ab d alpha beta n) (valD d n)) :
    ∀ (cs : List Node) (alpha beta : Option Int), winOK alpha beta → ∀ (v P : Int),
      ((v ≤ P ∧ (P ≤ v ∨ ∃ b, beta = some b ∧ b ≤ v)) ∨
        (∃ a, alpha = some a ∧ v ≤ a ∧ P ≤ v)) →
      triAt alpha beta (abFoldMin d alpha beta v cs) (valFoldMin d P cs)
  | [], alpha, beta, hw, v, P, hInv => by
    rw [abFoldMin_nil, valFoldMin_nil]
    exact triAt_stop_min alpha beta hw v P hInv
  | c :: cs, alpha, beta, hw, v, P, hInv => by
    rw [abFoldMin_cons, valFoldMin_cons]
    by_cases hcut : aboveLower alpha v = true
    case neg =>
      cases alpha with
      | none => exact absurd (aboveLower_none v) hcut
      | some a =>
        rw [if_neg hcut]
        have hva : v ≤ a := by
          rcases le_or_lt v a with h | h
          · exact h
          · exact absurd ((aboveLower_some a v).2 h) hcut
        refine abFoldMin_tri d IH cs (some a) beta hw v (min P (valD d c))
          (Or.inr ⟨a, rfl, hva, ?_⟩)
        rcases hInv with ⟨hvP, hPv | ⟨b, hb, hbv⟩⟩ | ⟨a', ha', hv'a, hPv⟩
        · exact le_trans (min_le_left _ _) hPv
        · subst hb
          have hab : a < b := hw
          exact absurd (le_trans hbv hva) (not_le.2 hab)
        · exact le_trans (min_le_left _ _) hPv
    case pos =>
      rw [if_pos hcut]
      have hD1 : v ≤ P ∧ (P ≤ v ∨ ∃ b, beta = some b ∧ b ≤ v) := by
        rcases hInv with h | ⟨a, ha, hva, _⟩
        · exact h
        · subst ha
          rw [aboveLower_some] at hcut
          exact absurd hcut (not_lt.2 hva)
      have hw' : winOK alpha (lowerUpper beta v) := by
        rcases alpha with _ | a
        · exact winOK_none_left _
        · rcases beta with _ | b
          · show a < v
            exact (aboveLower_some a v).1 hcut
          · show a < min b v
            exact lt_min hw ((aboveLower_some a v).1 hcut)
      have tri_c := IH c alpha (lowerUpper beta v) hw'
      by_cases halow2 : aboveLower alpha (ab d alpha (lowerUpper beta v) c) = true
      case neg =>
        -- the child search failed low: cutoff state from here on
        cases alpha with
        | none => exact absurd (aboveLower_none _) halow2
        | some a =>
          have hga : ab d (some a) (lowerUpper beta v) c ≤ a := by
            rcases le_or_lt (ab d (some a) (lowerUpper beta v) c) a with h | h
            · exact h
            · exact absurd ((aboveLower_some _ _).2 h) halow2
          have hwg := tri_c.1 a rfl hga
          have hav : a < v := (aboveLower_some a v).1 hcut
          have hgv : ab d (some a) (lowerUpper beta v) c ≤ v :=
            le_of_lt (lt_of_le_of_lt hga hav)
          refine abFoldMin_tri d IH cs (some a) beta hw _ (min P (valD d c))
            (Or.inr ⟨a, rfl, ?_, ?_⟩)
          · rw [min_eq_right hgv]
            exact hga
          · rw [min_eq_right hgv]
            exact le_trans (min_le_right _ _) hwg
      case pos =>
        by_cases hbhigh2 :
            belowUpper (lowerUpper beta v) (ab d alpha (lowerUpper beta v) c) = true
        case pos =>
          -- the child search answered exactly
          have hwg := tri_c.2.1 halow2 hbhigh2
          refine abFoldMin_tri d IH cs alpha beta hw _ (min P (valD d c)) (Or.inl ⟨?_, ?_⟩)
          · exact le_min (le_trans (min_le_left _ _) hD1.1)
              (le_trans (min_le_right _ _) (le_of_eq hwg.symm))
          · rcases le_total v (ab d alpha (lowerUpper beta v) c) with h | h
            · rw [min_eq_left h]
              rcases hD1.2 with hPv | ⟨b, hb, hbv⟩
              · exact Or.inl (le_trans (min_le_left _ _) hPv)
              · exact Or.inr ⟨b, hb, hbv⟩
            · rw [min_eq_right h]
              exact Or.inl (le_trans (min_le_right _ _) (le_of_eq hwg))
        case neg =>
          -- the child search failed high against the lowered upper bound
          cases beta with
          | none =>
            have hmg : v ≤ ab d alpha (lowerUpper none v) c := by
              rcases le_or_lt v (ab d alpha (lowerUpper none v) c) with h | h
              · exact h
              · refine absurd ?_ hbhigh2
                show belowUpper (some v) (ab d alpha (some v) c) = true
                exact (belowUpper_some _ _).2 h
            have hwg := tri_c.2.2 v rfl hmg
            refine abFoldMin_tri d IH cs alpha none hw _ (min P (valD d c)) (Or.inl ⟨?_, ?_⟩)
            · exact le_min (le_trans (min_le_left _ _) hD1.1)
                (le_trans (min_le_right _ _) hwg)
            · rw [min_eq_left hmg]
              rcases hD1.2 with hPv | ⟨b, hb, _⟩
              · exact Or.inl (le_trans (min_le_left _ _) hPv)
              · exact absurd hb (by simp)
          | some b =>
            have hmg : min b v ≤ ab d alpha (lowerUpper (some b) v) c := by
              rcases le_or_lt (min b v) (ab d alpha (lowerUpper (some b) v) c) with h | h
              · exact h
              · refine absurd ?_ hbhigh2
                show belowUpper (some (min b v)) (ab d alpha (some (min b v)) c) = true
                exact (belowUpper_some _ _).2 h
            have hwg := tri_c.2.2 (min b v) rfl hmg
            refine abFoldMin_tri d IH cs alpha (some b) hw _ (min P (valD d c)) (Or.inl ⟨?_, ?_⟩)
            · exact le_min (le_trans (min_le_left _ _) hD1.1)
                (le_trans (min_le_right _ _) hwg)
            · rcases le_total v (ab d alpha (lowerUpper (some b) v) c) with h | h
              · rw [min_eq_left h]
                rcases hD1.2 with hPv | ⟨b', hb', hb'v⟩
                · exact Or.inl (le_trans (min_le_left _ _) hPv)
                · refine Or.inr ⟨b, rfl, ?_⟩
                  have hbb : b' = b := by
                    injection hb' with h'
                    omega
                  omega
              · rw [min_eq_right h]
                rcases le_total v b with h2 | h2
                · have hmv : min b v = v := min_eq_right h2
                  rw [hmv] at hmg
                  have hgv : ab d alpha (lowerUpper (some b) v) c = v := le_antisymm h hmg
                  rw [hgv]
                  rcases hD1.2 with hPv | ⟨b', hb', hb'v⟩
                  · exact Or.inl (le_trans (min_le_left _ _) hPv)
                  · refine Or.inr ⟨b, rfl, ?_⟩
                    have hbb : b' = b := by
                      injection hb' with h'
                      omega
                    omega
                · have hmv : min b v = b := min_eq_left h2
                  rw [hmv] at hmg
                  exact Or.inr ⟨b, rfl, hmg⟩

/-- the Knuth-Moore theorem for the modelled fail-soft alpha-beta search:
under a well-formed window the search answer is exact when it lies strictly
inside the window, an upper bound on the unpruned value when it fails low,
and a lower bound on it when it fails high -/
theorem ab_tri : ∀ (d : Nat) (n : Node) (alpha beta : Option Int), winOK alpha beta →
    triAt alpha beta (ab d alpha beta n) (valD d n)
  | 0, n, alpha, beta, _ => by
    rw [ab_zero]
    exact ⟨fun _ _ _ => le_refl _, fun _ _ => rfl, fun _ _ _ => le_refl _⟩
  | _ + 1, .mk p f .nil, alpha, beta, _ => by
    rw [ab_leaf, valD_leaf]
    exact ⟨fun _ _ _ => le_refl _, fun _ _ => rfl, fun _ _ _ => le_refl _⟩
  | d + 1, .mk true f (.cons c rest), alpha, beta, hw => by
    rw [ab_cons_true, valD_cons_true]
    have IH : ∀ (n : Node) (alpha beta : Option Int), winOK alpha beta →
        triAt alpha beta (ab d alpha beta n) (valD d n) :=
      fun n al be h => ab_tri d n al be h
    have tri_c := IH c alpha beta hw
    refine abFoldMax_tri d IH rest.toList alpha beta hw (ab d alpha beta c) (valD d c) ?_
    by_cases halow : aboveLower alpha (ab d alpha beta c) = true
    · by_cases hbhigh : belowUpper beta (ab d alpha beta c) = true
      · have hwg := tri_c.2.1 halow hbhigh
        exact Or.inl ⟨le_of_eq hwg, Or.inl (le_of_eq hwg.symm)⟩
      · cases beta with
        | none => exact absurd (belowUpper_none _) hbhigh
        | some b =>
          have hbg : b ≤ ab d alpha (some b) c := by
            rcases le_or_lt b (ab d alpha (some b) c) with h | h
            · exact h
            · exact absurd ((belowUpper_some _ _).2 h) hbhigh
          exact Or.inr ⟨b, rfl, hbg, tri_c.2.2 b rfl hbg⟩
    · cases alpha with
      | none => exact absurd (aboveLower_none _) halow
      | some a =>
        have hga : ab d (some a) beta c ≤ a := by
          rcases le_or_lt (ab d (some a) beta c) a with h | h
          · exact h
          · exact absurd ((aboveLower_some _ _).2 h) halow
        exact Or.inl ⟨tri_c.1 a rfl hga, Or.inr ⟨a, rfl, hga⟩⟩
  | d + 1, .mk false f (.cons c rest), alpha, beta, hw => by
    rw [ab_cons_false, valD_cons_false]
    have IH : ∀ (n : Node) (alpha beta : Option Int), winOK alpha beta →
        triAt alpha beta (ab d alpha beta n) (valD d n) :=
      fun n al be h => ab_tri d n al be h
    have tri_c := IH c alpha beta hw
    refine abFoldMin_tri d IH rest.toList alpha beta hw (ab d alpha beta c) (valD d c) ?_
    by_cases hbhigh : belowUpper beta (ab d alpha beta c) = true
    · by_cases halow : aboveLower alpha (ab d alpha beta c) = true
      · have hwg := tri_c.2.1 halow hbhigh
        exact Or.inl ⟨le_of_eq hwg.symm, Or.inl (le_of_eq hwg)⟩
      · cases alpha with
        | none => exact absurd (aboveLower_none _) halow
        | some a =>
          have hga : ab d (some a) beta c ≤ a := by
            rcases le_or_lt (ab d (some a) beta c) a with h | h
            · exact h
            · exact absurd ((aboveLower_some _ _).2 h) halow
          exact Or.inr ⟨a, rfl, hga, tri_c.1 a rfl hga⟩
    · cases beta with
      | none => exact absurd (belowUpper_none _) hbhigh
      | some b =>
        have hbg : b ≤ ab d alpha (some b) c := by
          rcases le_or_lt b (ab d alpha (some b) c) with h | h
          · exact h
          · exact absurd ((belowUpper_some _ _).2 h) hbhigh
        exact Or.inl ⟨tri_c.2.2 b rfl hbg, Or.inr ⟨b, rfl, hbg⟩⟩

/-- with an unbounded window the alpha-beta search computes exactly the
unpruned depth-limited value -/
theorem ab_exact (d : Nat) (n : Node) : ab d none none n = valD d n :=
  ((ab_tri d n none none trivial).2.1 (aboveLower_none _) (belowUpper_none _)).symm

/-! ## Correctness of the root scan and of the deepening driver -/

/-- computation rule for the empty root scan -/
theorem rootLoop_nil (d i bi : Nat) (bv : Int) : rootLoop d i bi bv [] = (bi, bv) := rfl

/-- computation rule for one step of the root scan -/
theorem rootLoop_cons (d i bi : Nat) (bv : Int) (c : Node) (cs : List Node) :
    rootLoop d i bi bv (c :: cs) =
      if bv < ab d (some bv) none c then rootLoop d (i + 1) i (ab d (some bv) none c) cs
      else rootLoop d (i + 1) bi bv cs := rfl

/-- the root scan keeps an incumbent whose value only grows, dominates every
scanned action's unpruned value, and either keeps the incoming incumbent or
points at a scanned action whose unpruned value it carries -/
theorem rootLoop_spec (d : Nat) : ∀ (cs : List Node) (i bi : Nat) (bv : Int),
    bv ≤ (rootLoop d i bi bv cs).2 ∧
    (∀ c ∈ cs, valD d c ≤ (rootLoop d i bi bv cs).2) ∧
    (rootLoop d i bi bv cs = (bi, bv) ∨
      ∃ k c, cs[k]? = some c ∧ (rootLoop d i bi bv cs).1 = i + k ∧
        (rootLoop d i bi bv cs).2 = valD d c)
  | [], i, bi, bv => ⟨le_refl _, by simp, Or.inl rfl⟩
  | c :: cs, i, bi, bv => by
    have tri := ab_tri d c (some bv) none (winOK_none_right _)
    by_cases hlt : bv < ab d (some bv) none c
    · have hex : valD d c = ab d (some bv) none c :=
        tri.2.1 ((aboveLower_some _ _).2 hlt) (belowUpper_none _)
      rw [rootLoop_cons, if_pos hlt]
      have ih := rootLoop_spec d cs (i + 1) i (ab d (some bv) none c)
      refine ⟨le_trans (le_of_lt hlt) ih.1, ?_, ?_⟩
      · intro x hx
        rcases List.mem_cons.1 hx with h | h
        · subst h
          exact le_trans (le_of_eq hex) ih.1
        · exact ih.2.1 x h
      · rcases ih.2.2 with heq | ⟨k, c', hk, h1, h2⟩
        · right
          refine ⟨0, c, by simp, ?_, ?_⟩
          · rw [heq]
            simp
          · rw [heq]
            exact hex.symm
        · right
          refine ⟨k + 1, c', ?_, ?_, h2⟩
          · simpa using hk
          · rw [h1]
            omega
    · have hle : valD d c ≤ bv := by
        have h1 : ab d (some bv) none c ≤ bv := not_lt.1 hlt
        exact le_trans (tri.1 bv rfl h1) h1
      rw [rootLoop_cons, if_neg hlt]
      have ih := rootLoop_spec d cs (i + 1) bi bv
      refine ⟨ih.1, ?_, ?_⟩
      · intro x hx
        rcases List.mem_cons.1 hx with h | h
        · subst h
          exact le_trans hle ih.1
        · exact ih.2.1 x h
      · rcases ih.2.2 with heq | ⟨k, c', hk, h1, h2⟩
        · exact Or.inl heq
        · right
          refine ⟨k + 1, c', ?_, ?_, h2⟩
          · simpa using hk
          · rw [h1]
            omega

/-- a completed tier chooses an action whose unpruned depth-limited value is
maximal among all root actions -/
theorem rootTier_spec (d : Nat) (c : Node) (rest : List Node) :
    ∃ cb, (c :: rest)[(rootTier d (c :: rest)).1]? = some cb ∧
      (rootTier d (c :: rest)).2 = valD d cb ∧
      ∀ x ∈ c :: rest, valD d x ≤ (rootTier d (c :: rest)).2 := by
  have hstart : ab d none none c = valD d c := ab_exact d c
  have spec := rootLoop_spec d rest 1 0 (ab d none none c)
  have htier : rootTier d (c :: rest) = rootLoop d 1 0 (ab d none none c) rest := rfl
  rw [htier]
  have hub : ∀ x ∈ c :: rest, valD d x ≤ (rootLoop d 1 0 (ab d none none c) rest).2 := by
    intro x hx
    rcases List.mem_cons.1 hx with h | h
    · subst h
      exact le_of_eq_of_le hstart.symm spec.1
    · exact spec.2.1 x h
  rcases spec.2.2 with heq | ⟨k, c', hk, h1, h2⟩
  · refine ⟨c, ?_, ?_, hub⟩
    · rw [heq]
      simp
    · rw [heq]
      exact hstart
  · refine ⟨c', ?_, h2, hub⟩
    rw [h1, show 1 + k = k + 1 from by omega]
    simpa using hk

/-! ## The budget-polled search: computation rules -/

/-- computation rule: zero depth polls once and scores the fitness -/
theorem abS_zero {σ : Type} (rc : RCM σ) (alpha beta : Option Int) (n : Node) (s : σ) :
    abS rc 0 alpha beta n s =
      if (rc.stepF s).1 then (some n.fitness, (rc.stepF s).2)
      else (none, (rc.stepF s).2) := rfl

/-- computation rule: a leaf polls once and scores its fitness -/
theorem abS_leaf {σ : Type} (rc : RCM σ) : ∀ (d : Nat) (alpha beta : Option Int) (p : Bool)
    (f : Int) (s : σ),
    abS rc (d + 1) alpha beta (.mk p f .nil) s =
      if (rc.stepF s).1 then (some f, (rc.stepF s).2) else (none, (rc.stepF s).2)
  | _, _, _, true, _, _ => rfl
  | _, _, _, false, _, _ => rfl

/-- computation rule: a maximising node polls itself then scans its children -/
theorem abS_cons_true {σ : Type} (rc : RCM σ) (d : Nat) (alpha beta : Option Int) (f : Int)
    (c : Node) (rest : NList) (s : σ) :
    abS rc (d + 1) alpha beta (.mk true f (.cons c rest)) s =
      if (rc.stepF s).1 then
        abSFoldMax rc d alpha beta (abS rc d alpha beta c (rc.stepF s).2) rest.toList
      else (none, (rc.stepF s).2) := rfl

/-- computation rule: a minimising node polls itself then scans its children -/
theorem abS_cons_false {σ : Type} (rc : RCM σ) (d : Nat) (alpha beta : Option Int) (f : Int)
    (c : Node) (rest : NList) (s : σ) :
    abS rc (d + 1) alpha beta (.mk false f (.cons c rest)) s =
      if (rc.stepF s).1 then
        abSFoldMin rc d alpha beta (abS rc d alpha beta c (rc.stepF s).2) rest.toList
      else (none, (rc.stepF s).2) := rfl

/-- computation rule for the empty polled maximising scan -/
theorem abSFoldMax_nil {σ : Type} (rc : RCM σ) (d : Nat) (alpha beta : Option Int)
    (acc : Option Int × σ) : abSFoldMax rc d alpha beta acc [] = acc := rfl

/-- computation rule: an aborted maximising scan skips the next child -/
theorem abSFoldMax_cons_none {σ : Type} (rc : RCM σ) (d : Nat) (alpha beta : Option Int)
    (t : σ) (c : Node) (cs : List Node) :
    abSFoldMax rc d alpha beta (none, t) (c :: cs) = abSFoldMax rc d alpha beta (none, t) cs := rfl

/-- computation rule for one live step of the polled maximising scan -/
theorem abSFoldMax_cons_some {σ : Type} (rc : RCM σ) (d : Nat) (alpha beta : Option Int)
    (v : Int) (t : σ) (c : Node) (cs : List Node) :
    abSFoldMax rc d alpha beta (some v, t) (c :: cs) =
      abSFoldMax rc d alpha beta
        (if belowUpper beta v then
          match abS rc d (raiseLower alpha v) beta c t with
          | (none, t') => (none, t')
          | (some g, t') => (some (max v g), t')
        else (some v, t)) cs := rfl

/-- computation rule for the empty polled minimising scan -/
theorem abSFoldMin_nil {σ : Type} (rc : RCM σ) (d : Nat) (alpha beta : Option Int)
    (acc : Option Int × σ) : abSFoldMin rc d alpha beta acc [] = acc := rfl

/-- computation rule: an aborted minimising scan skips the next child -/
theorem abSFoldMin_cons_none {σ : Type} (rc : RCM σ) (d : Nat) (alpha beta : Option Int)
    (t : σ) (c : Node) (cs : List Node) :
    abSFoldMin rc d alpha beta (none, t) (c :: cs) = abSFoldMin rc d alpha beta (none, t) cs := rfl

/-- computation rule for one live step of the polled minimising scan -/
theorem abSFoldMin_cons_some {σ : Type} (rc : RCM σ) (d : Nat) (alpha beta : Option Int)
    (v : Int) (t : σ) (c : Node) (cs : List Node) :
    abSFoldMin rc d alpha beta (some v, t) (c :: cs) =
      abSFoldMin rc d alpha beta
        (if aboveLower alpha v then
          match abS rc d alpha (lowerUpper beta v) c t with
          | (none, t') => (none, t')
          | (some g, t') => (some (min v g), t')
        else (some v, t)) cs := rfl

/-- computation rule for the empty polled root scan -/
theorem rootLoopS_nil {σ : Type} (rc : RCM σ) (d i bi : Nat) (bv : Int) (s : σ) :
    rootLoopS rc d i bi bv [] s = (some (bi, bv), s) := rfl

/-- computation rule for one step of the polled root scan -/
theorem rootLoopS_cons {σ : Type} (rc : RCM σ) (d i bi : Nat) (bv : Int) (c : Node)
    (cs : List Node) (s : σ) :
    rootLoopS rc d i bi bv (c :: cs) s =
      match abS rc d (some bv) none c s with
      | (none, s') => (none, s')
      | (some g, s') =>
        if bv < g then rootLoopS rc d (i + 1) i g cs s'
        else rootLoopS rc d (i + 1) bi bv cs s' := rfl

/-- computation rule for the driver with exhausted fuel -/
theorem abLoop_zero {σ : Type} (rc : RCM σ) (root : Node) (s : σ) (best d : Nat) :
    abLoop rc root 0 s best d = ((best, d), s) := rfl

/-- computation rule for one round of the driver -/
theorem abLoop_succ {σ : Type} (rc : RCM σ) (root : Node) (fuel : Nat) (s : σ) (best d : Nat) :
    abLoop rc root (fuel + 1) s best d =
      if (rc.depthF s d).1 = false then ((best, d), (rc.depthF s d).2)
      else if solvedAt root d then ((best, d), (rc.depthF s d).2)
      else
        match rootTierS rc (d + 1) root.children (rc.depthF s d).2 with
        | (none, s') => ((best, d), s')
        | (some bi, s') => abLoop rc root fuel s' bi (d + 1) := rfl

/-- an aborted maximising scan stays aborted and keeps its state -/
theorem abSFoldMax_none {σ : Type} (rc : RCM σ) (d : Nat) (alpha beta : Option Int) :
    ∀ (cs : List Node) (t : σ), abSFoldMax rc d alpha beta (none, t) cs = (none, t)
  | [], _ => rfl
  | c :: cs, t => by
    rw [abSFoldMax_cons_none]
    exact abSFoldMax_none rc d alpha beta cs t

/-- an aborted minimising scan stays aborted and keeps its state -/
theorem abSFoldMin_none {σ : Type} (rc : RCM σ) (d : Nat) (alpha beta : Option Int) :
    ∀ (cs : List Node) (t : σ), abSFoldMin rc d alpha beta (none, t) cs = (none, t)
  | [], _ => rfl
  | c :: cs, t => by
    rw [abSFoldMin_cons_none]
    exact abSFoldMin_none rc d alpha beta cs t

/-- a maximising scan step at which the child search aborts -/
theorem abSFoldMax_cons_abort {σ : Type} (rc : RCM σ) (d : Nat) (alpha beta : Option Int)
    {v : Int} {t t' : σ} {c : Node} (cs : List Node) (hcut : belowUpper beta v = true)
    (habs : abS rc d (raiseLower alpha v) beta c t = (none, t')) :
    abSFoldMax rc d alpha beta (some v, t) (c :: cs) = (none, t') := by
  rw [abSFoldMax_cons_some, if_pos hcut, habs]
  exact abSFoldMax_none rc d alpha beta cs t'

/-- a maximising scan step at which the child search answers -/
theorem abSFoldMax_cons_live {σ : Type} (rc : RCM σ) (d : Nat) (alpha beta : Option Int)
    {v g : Int} {t t' : σ} {c : Node} (cs : List Node) (hcut : belowUpper beta v = true)
    (habs : abS rc d (raiseLower alpha v) beta c t = (some g, t')) :
    abSFoldMax rc d alpha beta (some v, t) (c :: cs) =
      abSFoldMax rc d alpha beta (some (max v g), t') cs := by
  rw [abSFoldMax_cons_some, if_pos hcut, habs]

/-- a maximising scan step at which the child is pruned: no poll happens -/
theorem abSFoldMax_cons_skip {σ : Type} (rc : RCM σ) (d : Nat) (alpha beta : Option Int)
    {v : Int} {t : σ} {c : Node} (cs : List Node) (hcut : ¬ belowUpper beta v = true) :
    abSFoldMax rc d alpha beta (some v, t) (c :: cs) =
      abSFoldMax rc d alpha beta (some v, t) cs := by
  rw [abSFoldMax_cons_some, if_neg hcut]

/-- a minimising scan step at which the child search aborts -/
theorem abSFoldMin_cons_abort {σ : Type} (rc : RCM σ) (d : Nat) (alpha beta : Option Int)
    {v : Int} {t t' : σ} {c : Node} (cs : List Node) (hcut : aboveLower alpha v = true)
    (habs : abS rc d alpha (lowerUpper beta v) c t = (none, t')) :
    abSFoldMin rc d alpha beta (some v, t) (c :: cs) = (none, t') := by
  rw [abSFoldMin_cons_some, if_pos hcut, habs]
  exact abSFoldMin_none rc d alpha beta cs t'

/-- a minimising scan step at which the child search answers -/
theorem abSFoldMin_cons_live {σ : Type} (rc : RCM σ) (d : Nat) (alpha beta : Option Int)
    {v g : Int} {t t' : σ} {c : Node} (cs : List Node) (hcut : aboveLower alpha v = true)
    (habs : abS rc d alpha (lowerUpper beta v) c t = (some g, t')) :
    abSFoldMin rc d alpha beta (some v, t) (c :: cs) =
      abSFoldMin rc d alpha beta (some (min v g), t') cs := by
  rw [abSFoldMin_cons_some, if_pos hcut, habs]

/-- a minimising scan step at which the child is pruned: no poll happens -/
theorem abSFoldMin_cons_skip {σ : Type} (rc : RCM σ) (d : Nat) (alpha beta : Option Int)
    {v : Int} {t : σ} {c : Node} (cs : List Node) (hcut : ¬ aboveLower alpha v = true) :
    abSFoldMin rc d alpha beta (some v, t) (c :: cs) =
      abSFoldMin rc d alpha beta (some v, t) cs := by
  rw [abSFoldMin_cons_some, if_neg hcut]

/-- a root scan step at which the action's search aborts -/
theorem rootLoopS_cons_abort {σ : Type} (rc : RCM σ) (d : Nat) {i bi : Nat} {bv : Int}
    {c : Node} (cs : List Node) {s s' : σ}
    (habs : abS rc d (some bv) none c s = (none, s')) :
    rootLoopS rc d i bi bv (c :: cs) s = (none, s') := by
  rw [rootLoopS_cons, habs]

/-- a root scan step at which the action's search answers -/
theorem rootLoopS_cons_live {σ : Type} (rc : RCM σ) (d : Nat) {i bi : Nat} {bv g : Int}
    {c : Node} (cs : List Node) {s s' : σ}
    (habs : abS rc d (some bv) none c s = (some g, s')) :
    rootLoopS rc d i bi bv (c :: cs) s =
      if bv < g then rootLoopS rc d (i + 1) i g cs s'
      else rootLoopS rc d (i + 1) bi bv cs s' := by
  rw [rootLoopS_cons, habs]

/-- computation rule for a childless root tier -/
theorem rootTierS_nil {σ : Type} (rc : RCM σ) (d : Nat) (s : σ) :
    rootTierS rc d [] s = (some 0, s) := rfl

/-- computation rule for a root tier over at least one action -/
theorem rootTierS_cons {σ : Type} (rc : RCM σ) (d : Nat) (c : Node) (rest : List Node)
    (s : σ) :
    rootTierS rc d (c :: rest) s =
      match abS rc d none none c s with
      | (none, s') => (none, s')
      | (some v, s') =>
        match rootLoopS rc d 1 0 v rest s' with
        | (none, s'') => (none, s'')
        | (some r, s'') => (some r.1, s'') := rfl

/-- a tier cut short while searching the first action -/
theorem rootTierS_cons_abort1 {σ : Type} (rc : RCM σ) (d : Nat) {c : Node} (rest : List Node)
    {s s' : σ} (habs : abS rc d none none c s = (none, s')) :
    rootTierS rc d (c :: rest) s = (none, s') := by
  rw [rootTierS_cons, habs]

/-- a tier whose first action's search answered continues with the scan -/
theorem rootTierS_cons_live {σ : Type} (rc : RCM σ) (d : Nat) {c : Node} (rest : List Node)
    {s s' : σ} {v : Int} (habs : abS rc d none none c s = (some v, s')) :
    rootTierS rc d (c :: rest) s =
      match rootLoopS rc d 1 0 v rest s' with
      | (none, s'') => (none, s'')
      | (some r, s'') => (some r.1, s'') := by
  rw [rootTierS_cons, habs]

/-- a tier cut short while scanning the later actions -/
theorem rootTierS_cons_abort2 {σ : Type} (rc : RCM σ) (d : Nat) {c : Node} (rest : List Node)
    {s s' s'' : σ} {v : Int} (habs : abS rc d none none c s = (some v, s'))
    (hloop : rootLoopS rc d 1 0 v rest s' = (none, s'')) :
    rootTierS rc d (c :: rest) s = (none, s'') := by
  rw [rootTierS_cons_live rc d rest habs, hloop]

/-- a tier that ran to completion -/
theorem rootTierS_cons_done {σ : Type} (rc : RCM σ) (d : Nat) {c : Node} (rest : List Node)
    {s s' s'' : σ} {v : Int} {r : Nat × Int} (habs : abS rc d none none c s = (some v, s'))
    (hloop : rootLoopS rc d 1 0 v rest s' = (some r, s'')) :
    rootTierS rc d (c :: rest) s = (some r.1, s'') := by
  rw [rootTierS_cons_live rc d rest habs, hloop]

/-- a pair whose first component is known equals the rebuilt pair -/
theorem pair_eq_of_fst {α β : Type} {p : α × β} {x : α} (h : p.1 = x) : p = (x, p.2) := by
  rw [← h]

/-! ## A tier that ran to completion computes the pure search's answer -/

/-- a completed polled maximising scan computes the pure scan's value -/
theorem abSFoldMax_some {σ : Type} (rc : RCM σ) (d : Nat) (alpha beta : Option Int)
    (IH : ∀ (a b : Option Int) (n : Node) (s : σ) (v : Int),
      (abS rc d a b n s).1 = some v → v = ab d a b n) :
    ∀ (cs : List Node) (v : Int) (t : σ) (w : Int),
      (abSFoldMax rc d alpha beta (some v, t) cs).1 = some w → w = abFoldMax d alpha beta v cs
  | [], v, t, w => by
    rw [abSFoldMax_nil, abFoldMax_nil]
    intro h
    exact (Option.some.inj h).symm
  | c :: cs, v, t, w => by
    by_cases hcut : belowUpper beta v = true
    · rcases h1 : (abS rc d (raiseLower alpha v) beta c t).1 with _ | g
      · have habs := pair_eq_of_fst h1
        rw [abSFoldMax_cons_abort rc d alpha beta cs hcut habs]
        intro h
        exact absurd h (by simp)
      · have habs := pair_eq_of_fst h1
        rw [abSFoldMax_cons_live rc d alpha beta cs hcut habs, abFoldMax_cons, if_pos hcut]
        intro h
        have hg : g = ab d (raiseLower alpha v) beta c := IH _ _ c t g h1
        rw [← hg]
        exact abSFoldMax_some rc d alpha beta IH cs (max v g) _ w h
    · rw [abSFoldMax_cons_skip rc d alpha beta cs hcut, abFoldMax_cons, if_neg hcut]
      exact abSFoldMax_some rc d alpha beta IH cs v t w

/-- a completed polled minimising scan computes the pure scan's value -/
theorem abSFoldMin_some {σ : Type} (rc : RCM σ) (d : Nat) (alpha beta : Option Int)
    (IH : ∀ (a b : Option Int) (n : Node) (s : σ) (v : Int),
      (abS rc d a b n s).1 = some v → v = ab d a b n) :
    ∀ (cs : List Node) (v : Int) (t : σ) (w : Int),
      (abSFoldMin rc d alpha beta (some v, t) cs).1 = some w → w = abFoldMin d alpha beta v cs
  | [], v, t, w => by
    rw [abSFoldMin_nil, abFoldMin_nil]
    intro h
    exact (Option.some.inj h).symm
  | c :: cs, v, t, w => by
    by_cases hcut : aboveLower alpha v = true
    · rcases h1 : (abS rc d alpha (lowerUpper beta v) c t).1 with _ | g
      · have habs := pair_eq_of_fst h1
        rw [abSFoldMin_cons_abort rc d alpha beta cs hcut habs]
        intro h
        exact absurd h (by simp)
      · have habs := pair_eq_of_fst h1
        rw [abSFoldMin_cons_live rc d alpha beta cs hcut habs, abFoldMin_cons, if_pos hcut]
        intro h
        have hg : g = ab d alpha (lowerUpper beta v) c := IH _ _ c t g h1
        rw [← hg]
        exact abSFoldMin_some rc d alpha beta IH cs (min v g) _ w h
    · rw [abSFoldMin_cons_skip rc d alpha beta cs hcut, abFoldMin_cons, if_neg hcut]
      exact abSFoldMin_some rc d alpha beta IH cs v t w

/-- a search that was not cut short computes the pure alpha-beta value -/
theorem abS_some {σ : Type} (rc : RCM σ) : ∀ (d : Nat) (alpha beta : Option Int) (n : Node)
    (s : σ) (v : Int), (abS rc d alpha beta n s).1 = some v → v = ab d alpha beta n
  | 0, alpha, beta, n, s, v => by
    rw [abS_zero, ab_zero]
    by_cases h : (rc.stepF s).1 = true
    · rw [if_pos h]
      intro h'
      exact (Option.some.inj h').symm
    · rw [if_neg h]
      intro h'
      exact absurd h' (by simp)
  | d + 1, alpha, beta, .mk p f .nil, s, v => by
    rw [abS_leaf, ab_leaf]
    by_cases h : (rc.stepF s).1 = true
    · rw [if_pos h]
      intro h'
      exact (Option.some.inj h').symm
    · rw [if_neg h]
      intro h'
      exact absurd h' (by simp)
  | d + 1, alpha, beta, .mk true f (.cons c rest), s, v => by
    rw [abS_cons_true, ab_cons_true]
    by_cases h : (rc.stepF s).1 = true
    · rw [if_pos h]
      rcases h1 : (abS rc d alpha beta c (rc.stepF s).2).1 with _ | v0
      · have habs := pair_eq_of_fst h1
        rw [habs, abSFoldMax_none]
        intro h'
        exact absurd h' (by simp)
      · have habs := pair_eq_of_fst h1
        rw [habs]
        intro h'
        have hv0 : v0 = ab d alpha beta c := abS_some rc d alpha beta c _ v0 h1
        rw [← hv0]
        exact abSFoldMax_some rc d alpha beta
          (fun a b n s v h => abS_some rc d a b n s v h) rest.toList v0 _ v h'
    · rw [if_neg h]
      intro h'
      exact absurd h' (by simp)
  | d + 1, alpha, beta, .mk false f (.cons c rest), s, v => by
    rw [abS_cons_false, ab_cons_false]
    by_cases h : (rc.stepF s).1 = true
    · rw [if_pos h]
      rcases h1 : (abS rc d alpha beta c (rc.stepF s).2).1 with _ | v0
      · have habs := pair_eq_of_fst h1
        rw [habs, abSFoldMin_none]
        intro h'
        exact absurd h' (by simp)
      · have habs := pair_eq_of_fst h1
        rw [habs]
        intro h'
        have hv0 : v0 = ab d alpha beta c := abS_some rc d alpha beta c _ v0 h1
        rw [← hv0]
        exact abSFoldMin_some rc d alpha beta
          (fun a b n s v h => abS_some rc d a b n s v h) rest.toList v0 _ v h'
    · rw [if_neg h]
      intro h'
      exact absurd h' (by simp)

/-- a completed polled root scan computes the pure root scan's incumbent -/
theorem rootLoopS_some {σ : Type} (rc : RCM σ) (d : Nat) :
    ∀ (cs : List Node) (i bi : Nat) (bv : Int) (s : σ) (r : Nat × Int),
      (rootLoopS rc d i bi bv cs s).1 = some r → r = rootLoop d i bi bv cs
  | [], i, bi, bv, s, r => by
    rw [rootLoopS_nil, rootLoop_nil]
    intro h
    exact (Option.some.inj h).symm
  | c :: cs, i, bi, bv, s, r => by
    rcases h1 : (abS rc d (some bv) none c s).1 with _ | g
    · have habs := pair_eq_of_fst h1
      rw [rootLoopS_cons_abort rc d cs habs]
      intro h
      exact absurd h (by simp)
    · have habs := pair_eq_of_fst h1
      rw [rootLoopS_cons_live rc d cs habs, rootLoop_cons]
      have hg : g = ab d (some bv) none c := abS_some rc d (some bv) none c s g h1
      rw [← hg]
      by_cases hlt : bv < g
      · rw [if_pos hlt, if_pos hlt]
        exact rootLoopS_some rc d cs (i + 1) i g _ r
      · rw [if_neg hlt, if_neg hlt]
        exact rootLoopS_some rc d cs (i + 1) bi bv _ r

/-- a tier that ran to completion chooses the pure tier's action -/
theorem rootTierS_some {σ : Type} (rc : RCM σ) (d : Nat) (cs : List Node) (s : σ) (bi : Nat)
    (h : (rootTierS rc d cs s).1 = some bi) : bi = (rootTier d cs).1 := by
  rcases cs with _ | ⟨c, rest⟩
  · exact (Option.some.inj h).symm
  · rcases h1 : (abS rc d none none c s).1 with _ | v
    · have habs := pair_eq_of_fst h1
      rw [rootTierS_cons_abort1 rc d rest habs] at h
      exact absurd h (by simp)
    · have habs := pair_eq_of_fst h1
      rcases h2 : (rootLoopS rc d 1 0 v rest (abS rc d none none c s).2).1 with _ | r
      · have hloop := pair_eq_of_fst h2
        rw [rootTierS_cons_abort2 rc d rest habs hloop] at h
        exact absurd h (by simp)
      · have hloop := pair_eq_of_fst h2
        rw [rootTierS_cons_done rc d rest habs hloop] at h
        have hr : r = rootLoop d 1 0 v rest :=
          rootLoopS_some rc d rest 1 0 v _ r h2
        have hv : v = ab d none none c := abS_some rc d none none c s v h1
        have hbi : bi = r.1 := (Option.some.inj h).symm
        rw [hbi, hr, hv]
        rfl

/-! ## Unfolding the driver at the three shapes of a tier's outcome -/

/-- a search depth at least the tallest child solves the position -/
theorem solvedAt_of_le (root : Node) (d : Nat) (h : maxChildHeight root ≤ d) :
    solvedAt root d = true := by
  unfold solvedAt
  rw [List.all_eq_true]
  intro c hc
  exact (allLeavesWithin_iff d c).2 (le_trans (height_le_maxChildHeight root c hc) h)

/-- a childless root selects nothing and never touches the budget -/
theorem ABselectFull_nil {σ : Type} (rc : RCM σ) (s : σ) (root : Node)
    (hch : root.children = []) : ABselectFull rc s root = (none, s) := by
  unfold ABselectFull
  rw [hch]

/-- a budget exhausted before the first tier completes selects nothing -/
theorem ABselectFull_abort {σ : Type} (rc : RCM σ) (s : σ) (root : Node) {c : Node}
    {rest : List Node} (hch : root.children = c :: rest) {s1 : σ}
    (hrt : rootTierS rc 0 root.children s = (none, s1)) :
    ABselectFull rc s root = (none, s1) := by
  rw [hch] at hrt
  unfold ABselectFull
  rw [hch, hrt]

/-- a completed first tier hands its choice to the deepening driver -/
theorem ABselectFull_cons {σ : Type} (rc : RCM σ) (s : σ) (root : Node) {c : Node}
    {rest : List Node} (hch : root.children = c :: rest) {bi : Nat} {s1 : σ}
    (hrt : rootTierS rc 0 root.children s = (some bi, s1)) :
    ABselectFull rc s root =
      (some (abLoop rc root (maxChildHeight root + 1) s1 bi 0).1.1,
        (abLoop rc root (maxChildHeight root + 1) s1 bi 0).2) := by
  rw [hch] at hrt
  unfold ABselectFull
  rw [hch, hrt]

/-! ## The ToCompletion budget never cuts a tier short -/

/-- under the run-to-completion budget the polled maximising scan is the
pure scan -/
theorem abSFoldMax_toCompletion (d : Nat) (alpha beta : Option Int)
    (IH : ∀ (a b : Option Int) (n : Node) (s : Unit),
      abS toCompletion d a b n s = (some (ab d a b n), s)) :
    ∀ (cs : List Node) (v : Int) (s : Unit),
      abSFoldMax toCompletion d alpha beta (some v, s) cs =
        (some (abFoldMax d alpha beta v cs), s)
  | [], v, s => by rw [abSFoldMax_nil, abFoldMax_nil]
  | c :: cs, v, s => by
    rw [abFoldMax_cons]
    by_cases hcut : belowUpper beta v = true
    · rw [abSFoldMax_cons_live toCompletion d alpha beta cs hcut
        (IH (raiseLower alpha v) beta c s), if_pos hcut]
      exact abSFoldMax_toCompletion d alpha beta IH cs (max v (ab d (raiseLower alpha v) beta c)) s
    · rw [abSFoldMax_cons_skip toCompletion d alpha beta cs hcut, if_neg hcut]
      exact abSFoldMax_toCompletion d alpha beta IH cs v s

/-- under the run-to-completion budget the polled minimising scan is the
pure scan -/
theorem abSFoldMin_toCompletion (d : Nat) (alpha beta : Option Int)
    (IH : ∀ (a b : Option Int) (n : Node) (s : Unit),
      abS toCompletion d a b n s = (some (ab d a b n), s)) :
    ∀ (cs : List Node) (v : Int) (s : Unit),
      abSFoldMin toCompletion d alpha beta (some v, s) cs =
        (some (abFoldMin d alpha beta v cs), s)
  | [], v, s => by rw [abSFoldMin_nil, abFoldMin_nil]
  | c :: cs, v, s => by
    rw [abFoldMin_cons]
    by_cases hcut : aboveLower alpha v = true
    · rw [abSFoldMin_cons_live toCompletion d alpha beta cs hcut
        (IH alpha (lowerUpper beta v) c s), if_pos hcut]
      exact abSFoldMin_toCompletion d alpha beta IH cs (min v (ab d alpha (lowerUpper beta v) c)) s
    · rw [abSFoldMin_cons_skip toCompletion d alpha beta cs hcut, if_neg hcut]
      exact abSFoldMin_toCompletion d alpha beta IH cs v s

/-- under the run-to-completion budget the polled search always completes
and computes the pure alpha-beta value -/
theorem abS_toCompletion : ∀ (d : Nat) (alpha beta : Option Int) (n : Node) (s : Unit),
    abS toCompletion d alpha beta n s = (some (ab d alpha beta n), s)
  | 0, _, _, _, _ => rfl
  | _ + 1, _, _, .mk true _ .nil, _ => rfl
  | _ + 1, _, _, .mk false _ .nil, _ => rfl
  | d + 1, alpha, beta, .mk true f (.cons c rest), s => by
    rw [abS_cons_true, if_pos (show (toCompletion.stepF s).1 = true from rfl),
      abS_toCompletion d alpha beta c (toCompletion.stepF s).2, ab_cons_true]
    exact abSFoldMax_toCompletion d alpha beta (fun a b n t => abS_toCompletion d a b n t)
      rest.toList (ab d alpha beta c) (toCompletion.stepF s).2
  | d + 1, alpha, beta, .mk false f (.cons c rest), s => by
    rw [abS_cons_false, if_pos (show (toCompletion.stepF s).1 = true from rfl),
      abS_toCompletion d alpha beta c (toCompletion.stepF s).2, ab_cons_false]
    exact abSFoldMin_toCompletion d alpha beta (fun a b n t => abS_toCompletion d a b n t)
      rest.toList (ab d alpha beta c) (toCompletion.stepF s).2

/-- under the run-to-completion budget the polled root scan is the pure one -/
theorem rootLoopS_toCompletion (d : Nat) :
    ∀ (cs : List Node) (i bi : Nat) (bv : Int) (s : Unit),
      rootLoopS toCompletion d i bi bv cs s = (some (rootLoop d i bi bv cs), s)
  | [], _, _, _, _ => rfl
  | c :: cs, i, bi, bv, s => by
    rw [rootLoopS_cons_live toCompletion d cs (abS_toCompletion d (some bv) none c s),
      rootLoop_cons]
    by_cases hlt : bv < ab d (some bv) none c
    · rw [if_pos hlt, if_pos hlt]
      exact rootLoopS_toCompletion d cs (i + 1) i (ab d (some bv) none c) s
    · rw [if_neg hlt, if_neg hlt]
      exact rootLoopS_toCompletion d cs (i + 1) bi bv s

/-- under the run-to-completion budget every tier completes with the pure
tier's choice -/
theorem rootTierS_toCompletion (d : Nat) :
    ∀ (cs : List Node) (s : Unit), rootTierS toCompletion d cs s = (some (rootTier d cs).1, s)
  | [], _ => rfl
  | c :: rest, s => by
    rw [rootTierS_cons_live toCompletion d rest (abS_toCompletion d none none c s),
      rootLoopS_toCompletion d rest 1 0 (ab d none none c) s]
    rfl

/-- under the run-to-completion budget the deepening driver stops at a
solved tier and reports that tier's pure choice -/
theorem abLoop_toCompletion (root : Node) :
    ∀ (fuel d best : Nat) (s : Unit),
      maxChildHeight root ≤ d + fuel →
      best = (rootTier d root.children).1 →
      ∃ e, d ≤ e ∧ solvedAt root e = true ∧
        abLoop toCompletion root (fuel + 1) s best d = (((rootTier e root.children).1, e), s)
  | 0, d, best, s => by
    intro hb hbest
    have hsol : solvedAt root d = true := solvedAt_of_le root d (by omega)
    refine ⟨d, le_refl d, hsol, ?_⟩
    rw [abLoop_succ, if_neg (show ¬ (toCompletion.depthF s d).1 = false from
      fun h => Bool.noConfusion h), if_pos hsol, hbest]
  | fuel + 1, d, best, s => by
    intro hb hbest
    by_cases hsol : solvedAt root d = true
    · refine ⟨d, le_refl d, hsol, ?_⟩
      rw [abLoop_succ, if_neg (show ¬ (toCompletion.depthF s d).1 = false from
        fun h => Bool.noConfusion h), if_pos hsol, hbest]
    · obtain ⟨e, hle, hsole, heq⟩ := abLoop_toCompletion root fuel (d + 1)
        ((rootTier (d + 1) root.children).1) s (by omega) rfl
      refine ⟨e, by omega, hsole, ?_⟩
      rw [abLoop_succ, if_neg (show ¬ (toCompletion.depthF s d).1 = false from
        fun h => Bool.noConfusion h), if_neg hsol,
        rootTierS_toCompletion (d + 1) root.children (toCompletion.depthF s d).2]
      exact heq

/-! ## The polled search only touches the budget through step() -/

/-- a property preserved by step() survives the polled maximising scan -/
theorem abSFoldMax_pres {σ : Type} (rc : RCM σ) (Q : σ → Prop) (d : Nat)
    (alpha beta : Option Int)
    (IH : ∀ (a b : Option Int) (n : Node) (t : σ), Q t → Q (abS rc d a b n t).2) :
    ∀ (cs : List Node) (acc : Option Int × σ), Q acc.2 → Q (abSFoldMax rc d alpha beta acc cs).2
  | [], acc, h => by rw [abSFoldMax_nil]; exact h
  | c :: cs, (none, t), h => by
    rw [abSFoldMax_cons_none]
    exact abSFoldMax_pres rc Q d alpha beta IH cs (none, t) h
  | c :: cs, (some v, t), h => by
    by_cases hcut : belowUpper beta v = true
    · rcases h1 : (abS rc d (raiseLower alpha v) beta c t).1 with _ | g
      · rw [abSFoldMax_cons_abort rc d alpha beta cs hcut (pair_eq_of_fst h1)]
        exact IH (raiseLower alpha v) beta c t h
      · rw [abSFoldMax_cons_live rc d alpha beta cs hcut (pair_eq_of_fst h1)]
        exact abSFoldMax_pres rc Q d alpha beta IH cs _ (IH (raiseLower alpha v) beta c t h)
    · rw [abSFoldMax_cons_skip rc d alpha beta cs hcut]
      exact abSFoldMax_pres rc Q d alpha beta IH cs (some v, t) h

/-- a property preserved by step() survives the polled minimising scan -/
theorem abSFoldMin_pres {σ : Type} (rc : RCM σ) (Q : σ → Prop) (d : Nat)
    (alpha beta : Option Int)
    (IH : ∀ (a b : Option Int) (n : Node) (t : σ), Q t → Q (abS rc d a b n t).2) :
    ∀ (cs : List Node) (acc : Option Int × σ), Q acc.2 → Q (abSFoldMin rc d alpha beta acc cs).2
  | [], acc, h => by rw [abSFoldMin_nil]; exact h
  | c :: cs, (none, t), h => by
    rw [abSFoldMin_cons_none]
    exact abSFoldMin_pres rc Q d alpha beta IH cs (none, t) h
  | c :: cs, (some v, t), h => by
    by_cases hcut : aboveLower alpha v = true
    · rcases h1 : (abS rc d alpha (lowerUpper beta v) c t).1 with _ | g
      · rw [abSFoldMin_cons_abort rc d alpha beta cs hcut (pair_eq_of_fst h1)]
        exact IH alpha (lowerUpper beta v) c t h
      · rw [abSFoldMin_cons_live rc d alpha beta cs hcut (pair_eq_of_fst h1)]
        exact abSFoldMin_pres rc Q d alpha beta IH cs _ (IH alpha (lowerUpper beta v) c t h)
    · rw [abSFoldMin_cons_skip rc d alpha beta cs hcut]
      exact abSFoldMin_pres rc Q d alpha beta IH cs (some v, t) h

/-- a property preserved by step() survives the polled node search -/
theorem abS_pres {σ : Type} (rc : RCM σ) (Q : σ → Prop)
    (hQ : ∀ s, Q s → Q (rc.stepF s).2) :
    ∀ (d : Nat) (alpha beta : Option Int) (n : Node) (s : σ), Q s → Q (abS rc d alpha beta n s).2
  | 0, alpha, beta, n, s => by
    intro h
    rw [abS_zero]
    by_cases hv : (rc.stepF s).1 = true
    · rw [if_pos hv]; exact hQ s h
    · rw [if_neg hv]; exact hQ s h
  | d + 1, alpha, beta, .mk p f .nil, s => by
    intro h
    rw [abS_leaf]
    by_cases hv : (rc.stepF s).1 = true
    · rw [if_pos hv]; exact hQ s h
    · rw [if_neg hv]; exact hQ s h
  | d + 1, alpha, beta, .mk true f (.cons c rest), s => by
    intro h
    rw [abS_cons_true]
    by_cases hv : (rc.stepF s).1 = true
    · rw [if_pos hv]
      exact abSFoldMax_pres rc Q d alpha beta
        (fun a b n t ht => abS_pres rc Q hQ d a b n t ht) rest.toList
        (abS rc d alpha beta c (rc.stepF s).2)
        (abS_pres rc Q hQ d alpha beta c (rc.stepF s).2 (hQ s h))
    · rw [if_neg hv]; exact hQ s h
  | d + 1, alpha, beta, .mk false f (.cons c rest), s => by
    intro h
    rw [abS_cons_false]
    by_cases hv : (rc.stepF s).1 = true
    · rw [if_pos hv]
      exact abSFoldMin_pres rc Q d alpha beta
        (fun a b n t ht => abS_pres rc Q hQ d a b n t ht) rest.toList
        (abS rc d alpha beta c (rc.stepF s).2)
        (abS_pres rc Q hQ d alpha beta c (rc.stepF s).2 (hQ s h))
    · rw [if_neg hv]; exact hQ s h

/-- a property preserved by step() survives the polled root scan -/
theorem rootLoopS_pres {σ : Type} (rc : RCM σ) (Q : σ → Prop)
    (hQ : ∀ s, Q s → Q (rc.stepF s).2) (d : Nat) :
    ∀ (cs : List Node) (i bi : Nat) (bv : Int) (s : σ), Q s →
      Q (rootLoopS rc d i bi bv cs s).2
  | [], i, bi, bv, s, h => by rw [rootLoopS_nil]; exact h
  | c :: cs, i, bi, bv, s, h => by
    rcases h1 : (abS rc d (some bv) none c s).1 with _ | g
    · rw [rootLoopS_cons_abort rc d cs (pair_eq_of_fst h1)]
      exact abS_pres rc Q hQ d (some bv) none c s h
    · rw [rootLoopS_cons_live rc d cs (pair_eq_of_fst h1)]
      have hs' := abS_pres rc Q hQ d (some bv) none c s h
      by_cases hlt : bv < g
      · rw [if_pos hlt]
        exact rootLoopS_pres rc Q hQ d cs (i + 1) i g _ hs'
      · rw [if_neg hlt]
        exact rootLoopS_pres rc Q hQ d cs (i + 1) bi bv _ hs'

/-- a property preserved by step() survives a whole polled tier -/
theorem rootTierS_pres {σ : Type} (rc : RCM σ) (Q : σ → Prop)
    (hQ : ∀ s, Q s → Q (rc.stepF s).2) (d : Nat) (cs : List Node) (s : σ) (h : Q s) :
    Q (rootTierS rc d cs s).2 := by
  rcases cs with _ | ⟨c, rest⟩
  · rw [rootTierS_nil]; exact h
  · rcases h1 : (abS rc d none none c s).1 with _ | v
    · rw [rootTierS_cons_abort1 rc d rest (pair_eq_of_fst h1)]
      exact abS_pres rc Q hQ d none none c s h
    · rw [rootTierS_cons_live rc d rest (pair_eq_of_fst h1)]
      have hs' := abS_pres rc Q hQ d none none c s h
      rcases h2 : (rootLoopS rc d 1 0 v rest (abS rc d none none c s).2).1 with _ | r
      · rw [pair_eq_of_fst h2]
        exact rootLoopS_pres rc Q hQ d rest 1 0 v _ hs'
      · rw [pair_eq_of_fst h2]
        exact rootLoopS_pres rc Q hQ d rest 1 0 v _ hs'

/-! ## The Logger around the deepening driver records the reported tier -/

/-- when the driver decorated by the Logger returns a choice, that choice is
the pure result of a fully completed tier and the logger's depth field holds
exactly that tier -/
theorem abLoop_logger {σ : Type} (inner : RCM σ) (root : Node) :
    ∀ (fuel d best : Nat) (L : LoggerS σ),
      maxChildHeight root ≤ d + fuel →
      best = (rootTier d root.children).1 →
      ∃ e L', d ≤ e ∧
        abLoop (innerLogger inner) root (fuel + 1) L best d
          = (((rootTier e root.children).1, e), L') ∧ L'.depth = e
  | 0, d, best, L => by
    intro hb hbest
    rw [abLoop_succ]
    by_cases hv : ((innerLogger inner).depthF L d).1 = false
    · rw [if_pos hv]
      refine ⟨d, ((innerLogger inner).depthF L d).2, le_refl d, ?_, rfl⟩
      rw [hbest]
    · rw [if_neg hv]
      have hsol : solvedAt root d = true := solvedAt_of_le root d (by omega)
      rw [if_pos hsol]
      refine ⟨d, ((innerLogger inner).depthF L d).2, le_refl d, ?_, rfl⟩
      rw [hbest]
  | fuel + 1, d, best, L => by
    intro hb hbest
    rw [abLoop_succ]
    by_cases hv : ((innerLogger inner).depthF L d).1 = false
    · rw [if_pos hv]
      refine ⟨d, ((innerLogger inner).depthF L d).2, le_refl d, ?_, rfl⟩
      rw [hbest]
    · rw [if_neg hv]
      by_cases hsol : solvedAt root d = true
      · rw [if_pos hsol]
        refine ⟨d, ((innerLogger inner).depthF L d).2, le_refl d, ?_, rfl⟩
        rw [hbest]
      · rw [if_neg hsol]
        rcases h1 : (rootTierS (innerLogger inner) (d + 1) root.children
            (((innerLogger inner).depthF L d).2)).1 with _ | bi
        · rw [pair_eq_of_fst h1]
          refine ⟨d, (rootTierS (innerLogger inner) (d + 1) root.children
            (((innerLogger inner).depthF L d).2)).2, le_refl d, ?_, ?_⟩
          · rw [hbest]
          · exact rootTierS_pres (innerLogger inner) (fun t => t.depth = d)
              (fun s h => h) (d + 1) root.children _ rfl
        · have hbi : bi = (rootTier (d + 1) root.children).1 :=
            rootTierS_some (innerLogger inner) (d + 1) root.children _ bi h1
          obtain ⟨e, L', hle, heq, hdep⟩ := abLoop_logger inner root fuel (d + 1) bi
            ((rootTierS (innerLogger inner) (d + 1) root.children
              (((innerLogger inner).depthF L d).2)).2) (by omega) hbi
          rw [pair_eq_of_fst h1]
          exact ⟨e, L', by omega, heq, hdep⟩

/-! ## Two budgets answering alike drive the search alike -/

/-- projection rule for the counting decorator's step() -/
theorem stepCounter_stepF {σ : Type} (inner : RCM σ) (p : σ × Nat) :
    (stepCounter inner).stepF p = ((inner.stepF p.1).1, ((inner.stepF p.1).2, p.2 + 1)) := rfl

/-- projection rule for the counting decorator's depth() -/
theorem stepCounter_depthF {σ : Type} (inner : RCM σ) (p : σ × Nat) (d : Nat) :
    (stepCounter inner).depthF p d = ((inner.depthF p.1 d).1, ((inner.depthF p.1 d).2, p.2)) := rfl

/-- related budgets drive the polled maximising scan alike -/
theorem abSFoldMax_sim {σ₁ σ₂ : Type} (rc₁ : RCM σ₁) (rc₂ : RCM σ₂) (R : σ₁ → σ₂ → Prop)
    (d : Nat) (alpha beta : Option Int)
    (IH : ∀ (a b : Option Int) (n : Node) (t₁ : σ₁) (t₂ : σ₂), R t₁ t₂ →
      simOut R (abS rc₁ d a b n t₁) (abS rc₂ d a b n t₂)) :
    ∀ (cs : List Node) (acc₁ : Option Int × σ₁) (acc₂ : Option Int × σ₂),
      simOut R acc₁ acc₂ →
      simOut R (abSFoldMax rc₁ d alpha beta acc₁ cs) (abSFoldMax rc₂ d alpha beta acc₂ cs)
  | [], acc₁, acc₂, hacc => by rw [abSFoldMax_nil, abSFoldMax_nil]; exact hacc
  | c :: cs, (ov₁, t₁), (ov₂, t₂), hacc => by
    obtain ⟨hv, hR⟩ := hacc
    cases hv
    rcases ov₁ with _ | v
    · rw [abSFoldMax_cons_none, abSFoldMax_cons_none]
      exact abSFoldMax_sim rc₁ rc₂ R d alpha beta IH cs (none, t₁) (none, t₂) ⟨rfl, hR⟩
    · by_cases hcut : belowUpper beta v = true
      · have hchild := IH (raiseLower alpha v) beta c t₁ t₂ hR
        rcases h1 : (abS rc₁ d (raiseLower alpha v) beta c t₁).1 with _ | g
        · have h2 : (abS rc₂ d (raiseLower alpha v) beta c t₂).1 = none :=
            hchild.1.symm.trans h1
          rw [abSFoldMax_cons_abort rc₁ d alpha beta cs hcut (pair_eq_of_fst h1),
            abSFoldMax_cons_abort rc₂ d alpha beta cs hcut (pair_eq_of_fst h2)]
          exact ⟨rfl, hchild.2⟩
        · have h2 : (abS rc₂ d (raiseLower alpha v) beta c t₂).1 = some g :=
            hchild.1.symm.trans h1
          rw [abSFoldMax_cons_live rc₁ d alpha beta cs hcut (pair_eq_of_fst h1),
            abSFoldMax_cons_live rc₂ d alpha beta cs hcut (pair_eq_of_fst h2)]
          exact abSFoldMax_sim rc₁ rc₂ R d alpha beta IH cs _ _ ⟨rfl, hchild.2⟩
      · rw [abSFoldMax_cons_skip rc₁ d alpha beta cs hcut,
          abSFoldMax_cons_skip rc₂ d alpha beta cs hcut]
        exact abSFoldMax_sim rc₁ rc₂ R d alpha beta IH cs (some v, t₁) (some v, t₂) ⟨rfl, hR⟩

/-- related budgets drive the polled minimising scan alike -/
theorem abSFoldMin_sim {σ₁ σ₂ : Type} (rc₁ : RCM σ₁) (rc₂ : RCM σ₂) (R : σ₁ → σ₂ → Prop)
    (d : Nat) (alpha beta : Option Int)
    (IH : ∀ (a b : Option Int) (n : Node) (t₁ : σ₁) (t₂ : σ₂), R t₁ t₂ →
      simOut R (abS rc₁ d a b n t₁) (abS rc₂ d a b n t₂)) :
    ∀ (cs : List Node) (acc₁ : Option Int × σ₁) (acc₂ : Option Int × σ₂),
      simOut R acc₁ acc₂ →
      simOut R (abSFoldMin rc₁ d alpha beta acc₁ cs) (abSFoldMin rc₂ d alpha beta acc₂ cs)
  | [], acc₁, acc₂, hacc => by rw [abSFoldMin_nil, abSFoldMin_nil]; exact hacc
  | c :: cs, (ov₁, t₁), (ov₂, t₂), hacc => by
    obtain ⟨hv, hR⟩ := hacc
    cases hv
    rcases ov₁ with _ | v
    · rw [abSFoldMin_cons_none, abSFoldMin_cons_none]
      exact abSFoldMin_sim rc₁ rc₂ R d alpha beta IH cs (none, t₁) (none, t₂) ⟨rfl, hR⟩
    · by_cases hcut : aboveLower alpha v = true
      · have hchild := IH alpha (lowerUpper beta v) c t₁ t₂ hR
        rcases h1 : (abS rc₁ d alpha (lowerUpper beta v) c t₁).1 with _ | g
        · have h2 : (abS rc₂ d alpha (lowerUpper beta v) c t₂).1 = none :=
            hchild.1.symm.trans h1
          rw [abSFoldMin_cons_abort rc₁ d alpha beta cs hcut (pair_eq_of_fst h1),
            abSFoldMin_cons_abort rc₂ d alpha beta cs hcut (pair_eq_of_fst h2)]
          exact ⟨rfl, hchild.2⟩
        · have h2 : (abS rc₂ d alpha (lowerUpper beta v) c t₂).1 = some g :=
            hchild.1.symm.trans h1
          rw [abSFoldMin_cons_live rc₁ d alpha beta cs hcut (pair_eq_of_fst h1),
            abSFoldMin_cons_live rc₂ d alpha beta cs hcut (pair_eq_of_fst h2)]
          exact abSFoldMin_sim rc₁ rc₂ R d alpha beta IH cs _ _ ⟨rfl, hchild.2⟩
      · rw [abSFoldMin_cons_skip rc₁ d alpha beta cs hcut,
          abSFoldMin_cons_skip rc₂ d alpha beta cs hcut]
        exact abSFoldMin_sim rc₁ rc₂ R d alpha beta IH cs (some v, t₁) (some v, t₂) ⟨rfl, hR⟩

/-- related budgets drive the polled node search alike: same answers, still
related states -/
theorem abS_sim {σ₁ σ₂ : Type} (rc₁ : RCM σ₁) (rc₂ : RCM σ₂) (R : σ₁ → σ₂ → Prop)
    (hsim : RCsim rc₁ rc₂ R) :
    ∀ (d : Nat) (alpha beta : Option Int) (n : Node) (s₁ : σ₁) (s₂ : σ₂), R s₁ s₂ →
      simOut R (abS rc₁ d alpha beta n s₁) (abS rc₂ d alpha beta n s₂)
  | 0, alpha, beta, n, s₁, s₂, hR => by
    have hstep := hsim.1 s₁ s₂ hR
    rw [abS_zero, abS_zero, hstep.1]
    by_cases h : (rc₂.stepF s₂).1 = true
    · rw [if_pos h, if_pos h]; exact ⟨rfl, hstep.2⟩
    · rw [if_neg h, if_neg h]; exact ⟨rfl, hstep.2⟩
  | d + 1, alpha, beta, .mk p f .nil, s₁, s₂, hR => by
    have hstep := hsim.1 s₁ s₂ hR
    rw [abS_leaf, abS_leaf, hstep.1]
    by_cases h : (rc₂.stepF s₂).1 = true
    · rw [if_pos h, if_pos h]; exact ⟨rfl, hstep.2⟩
    · rw [if_neg h, if_neg h]; exact ⟨rfl, hstep.2⟩
  | d + 1, alpha, beta, .mk true f (.cons c rest), s₁, s₂, hR => by
    have hstep := hsim.1 s₁ s₂ hR
    rw [abS_cons_true, abS_cons_true, hstep.1]
    by_cases h : (rc₂.stepF s₂).1 = true
    · rw [if_pos h, if_pos h]
      exact abSFoldMax_sim rc₁ rc₂ R d alpha beta
        (fun a b n t₁ t₂ ht => abS_sim rc₁ rc₂ R hsim d a b n t₁ t₂ ht) rest.toList _ _
        (abS_sim rc₁ rc₂ R hsim d alpha beta c (rc₁.stepF s₁).2 (rc₂.stepF s₂).2 hstep.2)
    · rw [if_neg h, if_neg h]; exact ⟨rfl, hstep.2⟩
  | d + 1, alpha, beta, .mk false f (.cons c rest), s₁, s₂, hR => by
    have hstep := hsim.1 s₁ s₂ hR
    rw [abS_cons_false, abS_cons_false, hstep.1]
    by_cases h : (rc₂.stepF s₂).1 = true
    · rw [if_pos h, if_pos h]
      exact abSFoldMin_sim rc₁ rc₂ R d alpha beta
        (fun a b n t₁ t₂ ht => abS_sim rc₁ rc₂ R hsim d a b n t₁ t₂ ht) rest.toList _ _
        (abS_sim rc₁ rc₂ R hsim d alpha beta c (rc₁.stepF s₁).2 (rc₂.stepF s₂).2 hstep.2)
    · rw [if_neg h, if_neg h]; exact ⟨rfl, hstep.2⟩

/-- related budgets drive the polled root scan alike -/
theorem rootLoopS_sim {σ₁ σ₂ : Type} (rc₁ : RCM σ₁) (rc₂ : RCM σ₂) (R : σ₁ → σ₂ → Prop)
    (hsim : RCsim rc₁ rc₂ R) (d : Nat) :
    ∀ (cs : List Node) (i bi : Nat) (bv : Int) (s₁ : σ₁) (s₂ : σ₂), R s₁ s₂ →
      simOut R (rootLoopS rc₁ d i bi bv cs s₁) (rootLoopS rc₂ d i bi bv cs s₂)
  | [], i, bi, bv, s₁, s₂, hR => by rw [rootLoopS_nil, rootLoopS_nil]; exact ⟨rfl, hR⟩
  | c :: cs, i, bi, bv, s₁, s₂, hR => by
    have hchild := abS_sim rc₁ rc₂ R hsim d (some bv) none c s₁ s₂ hR
    rcases h1 : (abS rc₁ d (some bv) none c s₁).1 with _ | g
    · have h2 : (abS rc₂ d (some bv) none c s₂).1 = none := hchild.1.symm.trans h1
      rw [rootLoopS_cons_abort rc₁ d cs (pair_eq_of_fst h1),
        rootLoopS_cons_abort rc₂ d cs (pair_eq_of_fst h2)]
      exact ⟨rfl, hchild.2⟩
    · have h2 : (abS rc₂ d (some bv) none c s₂).1 = some g := hchild.1.symm.trans h1
      rw [rootLoopS_cons_live rc₁ d cs (pair_eq_of_fst h1),
        rootLoopS_cons_live rc₂ d cs (pair_eq_of_fst h2)]
      by_cases hlt : bv < g
      · rw [if_pos hlt, if_pos hlt]
        exact rootLoopS_sim rc₁ rc₂ R hsim d cs (i + 1) i g _ _ hchild.2
      · rw [if_neg hlt, if_neg hlt]
        exact rootLoopS_sim rc₁ rc₂ R hsim d cs (i + 1) bi bv _ _ hchild.2

/-- related budgets drive a whole polled tier alike -/
theorem rootTierS_sim {σ₁ σ₂ : Type} (rc₁ : RCM σ₁) (rc₂ : RCM σ₂) (R : σ₁ → σ₂ → Prop)
    (hsim : RCsim rc₁ rc₂ R) (d : Nat) (cs : List Node) (s₁ : σ₁) (s₂ : σ₂) (hR : R s₁ s₂) :
    simOut R (rootTierS rc₁ d cs s₁) (rootTierS rc₂ d cs s₂) := by
  rcases cs with _ | ⟨c, rest⟩
  · rw [rootTierS_nil, rootTierS_nil]; exact ⟨rfl, hR⟩
  · have hchild := abS_sim rc₁ rc₂ R hsim d none none c s₁ s₂ hR
    rcases h1 : (abS rc₁ d none none c s₁).1 with _ | v
    · have h2 : (abS rc₂ d none none c s₂).1 = none := hchild.1.symm.trans h1
      rw [rootTierS_cons_abort1 rc₁ d rest (pair_eq_of_fst h1),
        rootTierS_cons_abort1 rc₂ d rest (pair_eq_of_fst h2)]
      exact ⟨rfl, hchild.2⟩
    · have h2 : (abS rc₂ d none none c s₂).1 = some v := hchild.1.symm.trans h1
      rw [rootTierS_cons_live rc₁ d rest (pair_eq_of_fst h1),
        rootTierS_cons_live rc₂ d rest (pair_eq_of_fst h2)]
      have hloop := rootLoopS_sim rc₁ rc₂ R hsim d rest 1 0 v
        (abS rc₁ d none none c s₁).2 (abS rc₂ d none none c s₂).2 hchild.2
      rcases h3 : (rootLoopS rc₁ d 1 0 v rest (abS rc₁ d none none c s₁).2).1 with _ | r
      · have h4 : (rootLoopS rc₂ d 1 0 v rest (abS rc₂ d none none c s₂).2).1 = none :=
          hloop.1.symm.trans h3
        rw [pair_eq_of_fst h3, pair_eq_of_fst h4]
        exact ⟨rfl, hloop.2⟩
      · have h4 : (rootLoopS rc₂ d 1 0 v rest (abS rc₂ d none none c s₂).2).1 = some r :=
          hloop.1.symm.trans h3
        rw [pair_eq_of_fst h3, pair_eq_of_fst h4]
        exact ⟨rfl, hloop.2⟩

/-- related budgets drive the deepening driver alike -/
theorem abLoop_sim {σ₁ σ₂ : Type} (rc₁ : RCM σ₁) (rc₂ : RCM σ₂) (R : σ₁ → σ₂ → Prop)
    (hsim : RCsim rc₁ rc₂ R) (root : Node) :
    ∀ (fuel best d : Nat) (s₁ : σ₁) (s₂ : σ₂), R s₁ s₂ →
      simOut R (abLoop rc₁ root fuel s₁ best d) (abLoop rc₂ root fuel s₂ best d)
  | 0, best, d, s₁, s₂, hR => by rw [abLoop_zero, abLoop_zero]; exact ⟨rfl, hR⟩
  | fuel + 1, best, d, s₁, s₂, hR => by
    have hdq := hsim.2 s₁ s₂ d hR
    rw [abLoop_succ, abLoop_succ, hdq.1]
    by_cases hv : (rc₂.depthF s₂ d).1 = false
    · rw [if_pos hv, if_pos hv]; exact ⟨rfl, hdq.2⟩
    · rw [if_neg hv, if_neg hv]
      by_cases hsol : solvedAt root d = true
      · rw [if_pos hsol, if_pos hsol]; exact ⟨rfl, hdq.2⟩
      · rw [if_neg hsol, if_neg hsol]
        have hrt := rootTierS_sim rc₁ rc₂ R hsim (d + 1) root.children
          (rc₁.depthF s₁ d).2 (rc₂.depthF s₂ d).2 hdq.2
        rcases h1 : (rootTierS rc₁ (d + 1) root.children (rc₁.depthF s₁ d).2).1 with _ | bi
        · have h2 : (rootTierS rc₂ (d + 1) root.children (rc₂.depthF s₂ d).2).1 = none :=
            hrt.1.symm.trans h1
          rw [pair_eq_of_fst h1, pair_eq_of_fst h2]
          exact ⟨rfl, hrt.2⟩
        · have h2 : (rootTierS rc₂ (d + 1) root.children (rc₂.depthF s₂ d).2).1 = some bi :=
            hrt.1.symm.trans h1
          rw [pair_eq_of_fst h1, pair_eq_of_fst h2]
          exact abLoop_sim rc₁ rc₂ R hsim root fuel bi (d + 1) _ _ hrt.2

/-- related budgets drive a whole `Bot::select` call alike -/
theorem ABselectFull_sim {σ₁ σ₂ : Type} (rc₁ : RCM σ₁) (rc₂ : RCM σ₂) (R : σ₁ → σ₂ → Prop)
    (hsim : RCsim rc₁ rc₂ R) (root : Node) (s₁ : σ₁) (s₂ : σ₂) (hR : R s₁ s₂) :
    simOut R (ABselectFull rc₁ s₁ root) (ABselectFull rc₂ s₂ root) := by
  rcases hch : root.children with _ | ⟨c, rest⟩
  · rw [ABselectFull_nil rc₁ s₁ root hch, ABselectFull_nil rc₂ s₂ root hch]
    exact ⟨rfl, hR⟩
  · have hrt := rootTierS_sim rc₁ rc₂ R hsim 0 root.children s₁ s₂ hR
    rcases h1 : (rootTierS rc₁ 0 root.children s₁).1 with _ | bi
    · have h2 : (rootTierS rc₂ 0 root.children s₂).1 = none := hrt.1.symm.trans h1
      rw [ABselectFull_abort rc₁ s₁ root hch (pair_eq_of_fst h1),
        ABselectFull_abort rc₂ s₂ root hch (pair_eq_of_fst h2)]
      exact ⟨rfl, hrt.2⟩
    · have h2 : (rootTierS rc₂ 0 root.children s₂).1 = some bi := hrt.1.symm.trans h1
      rw [ABselectFull_cons rc₁ s₁ root hch (pair_eq_of_fst h1),
        ABselectFull_cons rc₂ s₂ root hch (pair_eq_of_fst h2)]
      have hloop := abLoop_sim rc₁ rc₂ R hsim root (maxChildHeight root + 1) bi 0
        (rootTierS rc₁ 0 root.children s₁).2 (rootTierS rc₂ 0 root.children s₂).2 hrt.2
      exact ⟨by rw [hloop.1], hloop.2⟩

/-- unfolding rule of `isBest` at none -/
theorem isBest_none (root : Node) : isBest root none ↔ root.children = [] := Iff.rfl

/-- unfolding rule of `isBest` at an action index -/
theorem isBest_some (root : Node) (i : Nat) :
    isBest root (some i) ↔
      ∃ c, root.children[i]? = some c ∧ ∀ x ∈ root.children, val x ≤ val c := Iff.rfl

/-! ## The claims about the engine -/

/-- C1: for every finite fuzz-harness game tree whose root position belongs
to the searched player, the action selected by the modelled alpha-beta
engine under the ToCompletion budget is judged best by the unpruned
brute-force oracle (ties in fitness allowed), and no action is selected
exactly when none is legal. -/
theorem select_to_completion_is_brute_best (root : Node) (_hp : root.player = true) :
    isBest root (ABselect toCompletion () root) := by
  rcases hch : root.children with _ | ⟨c, rest⟩
  · have hsel : ABselect toCompletion () root = none := by
      unfold ABselect
      rw [ABselectFull_nil toCompletion () root hch]
    rw [hsel, isBest_none]
    exact hch
  · have hA := ABselectFull_cons toCompletion () root hch
      (rootTierS_toCompletion 0 root.children ())
    obtain ⟨e, _, hsol, heq⟩ := abLoop_toCompletion root (maxChildHeight root) 0
      ((rootTier 0 root.children).1) () (by omega) rfl
    have hsel : ABselect toCompletion () root = some (rootTier e root.children).1 := by
      unfold ABselect
      rw [hA, heq]
    rw [hsel, isBest_some]
    unfold solvedAt at hsol
    have hconv : ∀ x ∈ root.children, valD e x = val x := by
      intro x hx
      exact valD_stab e x ((allLeavesWithin_iff e x).1 (List.all_eq_true.1 hsol x hx))
    rcases rootTier_spec e c rest with ⟨cb, hidx, hval, hub⟩
    have hcb_mem : cb ∈ root.children := by
      rw [hch]
      exact List.getElem?_mem hidx
    refine ⟨cb, ?_, ?_⟩
    · rw [hch]
      exact hidx
    · intro x hx
      rw [← hconv x hx, ← hconv cb hcb_mem]
      have h1 : valD e x ≤ (rootTier e (c :: rest)).2 := hub x (hch ▸ hx)
      exact le_trans h1 (le_of_eq hval)

/-- witness for C1 at the documented two-ply tree, whose oracle-best action
is the second one -/
theorem select_to_completion_is_brute_best_witness : isBest exTree (some 1) := by
  have h := select_to_completion_is_brute_best exTree rfl
  rwa [show ABselect toCompletion () exTree = some 1 from by decide] at h

/-- C2: on the documented two-ply tree the modelled engine selects the
first top-level action under the Depth(0) budget and the second top-level
action under the Depth(1) budget. -/
theorem depth_budget_selects_documented_actions :
    ABselect depthCond 0 exTree = some 0 ∧ ABselect depthCond 1 exTree = some 1 := by
  decide

/-- C3: whenever the actions query for the searched player yields no
action, the modelled engine selects none, whatever budget state machine is
supplied. -/
theorem select_without_actions_returns_none {σ : Type} (rc : RCM σ) (s : σ) (root : Node)
    (h : (root.actions true).2 = []) : ABselect rc s root = none := by
  have hc : root.children = [] := by
    have hlen := congrArg List.length h
    simp only [Node.actions, List.length_range, List.length_nil] at hlen
    exact List.length_eq_zero.1 hlen
  unfold ABselect
  rw [ABselectFull_nil rc s root hc]

/-- witness for C3 at a childless root and the run-to-completion budget -/
theorem select_without_actions_returns_none_witness :
    ABselect toCompletion () (Node.mk true 0 .nil) = none :=
  select_without_actions_returns_none toCompletion () (Node.mk true 0 .nil) rfl

/-- C8: after a search invocation bracketed by Logger acquisition and
release, the logger's steps field equals the count kept by a decorator
that tallies every step() poll the same bracketed search makes, and
whenever the search returns a choice, that choice is the pure result of a
fully completed depth tier — never of a tier merely attempted, denied or
cut short — and the logger's depth field names exactly that tier. -/
theorem logger_reports_completed_tier_and_step_count :
    (∀ (σ : Type) (inner : RCM σ) (L : LoggerS σ) (t0 t1 : Nat) (root : Node),
      (loggerSelect inner L t0 t1 root).2.steps
        = (ABselectFull (stepCounter inner) (L.condition, 0) root).2.2) ∧
    (∀ (σ : Type) (inner : RCM σ) (L : LoggerS σ) (t0 t1 : Nat) (root : Node) (i : Nat),
      (loggerSelect inner L t0 t1 root).1 = some i →
      ∃ e, (loggerSelect inner L t0 t1 root).1 = some (rootTier e root.children).1 ∧
        (loggerSelect inner L t0 t1 root).2.depth = e) := by
  constructor
  · intro σ inner L t0 t1 root
    have hsim : RCsim (innerLogger inner) (stepCounter inner)
        (fun Lg p => Lg.condition = p.1 ∧ Lg.steps = p.2) := by
      refine ⟨fun s₁ s₂ hR => ?_, fun s₁ s₂ d hR => ?_⟩
      · rw [innerLogger_stepF, stepCounter_stepF]
        exact ⟨by rw [hR.1], by rw [hR.1], by rw [hR.2]⟩
      · rw [innerLogger_depthF, stepCounter_depthF]
        exact ⟨by rw [hR.1], by rw [hR.1], hR.2⟩
    have hout := ABselectFull_sim (innerLogger inner) (stepCounter inner) _ hsim root
      (loggerAcquire L) (L.condition, 0) ⟨rfl, rfl⟩
    exact hout.2.2
  · intro σ inner L t0 t1 root i hsome
    rcases hch : root.children with _ | ⟨c, rest⟩
    · have hnone : (loggerSelect inner L t0 t1 root).1 = none := by
        unfold loggerSelect
        rw [ABselectFull_nil (innerLogger inner) (loggerAcquire L) root hch]
      rw [hnone] at hsome
      exact Option.noConfusion hsome
    · rcases h1 : (rootTierS (innerLogger inner) 0 root.children (loggerAcquire L)).1
          with _ | bi
      · have hnone : (loggerSelect inner L t0 t1 root).1 = none := by
          unfold loggerSelect
          rw [ABselectFull_abort (innerLogger inner) (loggerAcquire L) root hch
            (pair_eq_of_fst h1)]
        rw [hnone] at hsome
        exact Option.noConfusion hsome
      · have hbi : bi = (rootTier 0 root.children).1 :=
          rootTierS_some (innerLogger inner) 0 root.children (loggerAcquire L) bi h1
        obtain ⟨e, L', _, heq, hdep⟩ := abLoop_logger inner root (maxChildHeight root) 0 bi
          ((rootTierS (innerLogger inner) 0 root.children (loggerAcquire L)).2)
          (by omega) hbi
        have hA := ABselectFull_cons (innerLogger inner) (loggerAcquire L) root hch
          (pair_eq_of_fst h1)
        refine ⟨e, ?_, ?_⟩
        · unfold loggerSelect
          rw [hA, heq, hch]
        · unfold loggerSelect
          rw [hA, heq]
          exact hdep

/-- witness for C8 at the documented two-ply tree under a Steps(5) budget:
the first tier completes after two polls, the second tier is cut short at
the fifth poll, and the logger reports the completed tier 0 together with
its choice -/
theorem logger_reports_completed_tier_and_step_count_witness :
    ∃ e, (loggerSelect innerSteps ⟨(0, 5), 6, 7, 8⟩ 3 10 exTree).1
        = some (rootTier e exTree.children).1 ∧
      (loggerSelect innerSteps ⟨(0, 5), 6, 7, 8⟩ 3 10 exTree).2.depth = e :=
  logger_reports_completed_tier_and_step_count.2 (Nat × Nat) innerSteps ⟨(0, 5), 6, 7, 8⟩
    3 10 exTree 0 (by decide)

end Rubot
